import Mathlib

/-!
# Monte-Carlo volume estimator: embedding and verification

Shallow embedding of `src/main.cpp` and `src/hit.cpp`.

* `unsigned` values are natural numbers reduced modulo `2^32`.
* `float` values are IEEE 754 binary32 values, see `F32` below: every
  operation is rounded to nearest, ties to even, on its own (no extended
  precision, no fused multiply-add).
* The OpenMP parallel region is embedded as the list of its workers, each
  running the iterations the static schedule gives it.
-/

namespace MonteCarlo

/-! ## Definitions -/

/-! ### The xorshift generator state (`class Xorshift`, integer part) -/

/-- Modulus of the `unsigned` type: `2^32`. -/
def UINT_MOD : Nat := 4294967296

/-- State update of `Xorshift::next`: `x ^= x << 13; x ^= x >> 7; x ^= x << 17`
on a 32-bit `unsigned`, left shifts being truncated to 32 bits. -/
def Xorshift.step (state : Nat) : Nat :=
  let x0 := state
  let x1 := x0 ^^^ ((x0 <<< 13) % UINT_MOD)
  let x2 := x1 ^^^ (x1 >>> 7)
  let x3 := x2 ^^^ ((x2 <<< 17) % UINT_MOD)
  x3

/-- State of a generator after `n` calls of `Xorshift::next`, started from `seed`. -/
def Xorshift.state_after : Nat → Nat → Nat
  | 0, seed => seed
  | n + 1, seed => Xorshift.step (Xorshift.state_after n seed)

/-- The seed computed by `unsigned seed = time(NULL) + omp_get_thread_num();`:
the sum of the wall-clock value `t` and the worker index `k`, converted to
`unsigned` (reduced modulo `2^32`). -/
def thread_seed (t : Int) (k : Int) : Nat :=
  ((t + k) % (UINT_MOD : Int)).toNat

/-! ### IEEE 754 binary32 values (`float`)

Every finite binary32 value is an integer multiple of `2^(-149)`, the least
positive subnormal. A finite value is therefore stored as the integer `n` with
value `n * 2^(-149)`. The two zeros are identified: the program never divides
by a computed zero and compares values only with `<=`, so the sign of a zero is
not observable. Arithmetic is round-to-nearest, ties-to-even, one rounding per
operation. -/

/-- Binary32 value: `fin n` is the finite value `n * 2^(-149)`. -/
inductive F32 where
  | fin (n : Int)
  | pinf
  | ninf
  | nan
  deriving DecidableEq, Repr

/-- Number of units `2^(-149)` in `1.0`. -/
def F32.UNIT : Nat := 2 ^ 149

/-- Magnitudes (in units) from `2^128` on overflow to infinity. -/
def F32.OVERFLOW : Nat := 2 ^ 128 * 2 ^ 149

/-- Nearest integer to `p / q`, ties to the even integer. -/
def F32.rne (p q : Nat) : Nat :=
  let m := p / q
  let r := p % q
  if 2 * r < q then m else if q < 2 * r then m + 1 else if m % 2 = 0 then m else m + 1

/-- Rounding of the magnitude `p / q` (in units) to 24 significant bits:
below `2^24` units the spacing of binary32 values is one unit (subnormals and
the first binade); each further binade doubles the spacing. -/
def F32.round_mag : Nat → Nat → Nat → Nat
  | 0, p, q => F32.rne p q
  | fuel + 1, p, q =>
    if p < 16777216 * q then F32.rne p q else 2 * F32.round_mag fuel p (2 * q)

/-- Rounding of the magnitude `p / q`; the fuel `p` suffices, as `p < 2^p`. -/
def F32.mag (p q : Nat) : Nat := F32.round_mag p p q

/-- Rounding of the exact value `num / den` (in units) to binary32. -/
def F32.round (num : Int) (den : Nat) : F32 :=
  let m := F32.mag num.natAbs den
  if F32.OVERFLOW ≤ m then (if num < 0 then F32.ninf else F32.pinf)
  else F32.fin (if num < 0 then -(m : Int) else (m : Int))

/-- A binary32 value proper: a finite one is below the overflow threshold and
has at most 24 significant bits (rounding leaves it unchanged). -/
def F32.Valid : F32 → Prop
  | F32.fin n => n.natAbs < F32.OVERFLOW ∧ F32.mag n.natAbs 1 = n.natAbs
  | _ => True

instance (x : F32) : Decidable (F32.Valid x) := by
  cases x <;> unfold F32.Valid <;> infer_instance

/-- Value of the literal `p/q` written with suffix `f`. -/
def F32.lit (p : Int) (q : Nat) : F32 := F32.round (p * (F32.UNIT : Int)) q

/-- Conversion `unsigned -> float`. -/
def F32.ofNat (u : Nat) : F32 := F32.round ((u : Int) * (F32.UNIT : Int)) 1

/-- Conversion `int -> float` (`static_cast<float>`). -/
def F32.ofInt (i : Int) : F32 := F32.round (i * (F32.UNIT : Int)) 1

/-- Unary minus. -/
def F32.neg : F32 → F32
  | F32.fin n => F32.fin (-n)
  | F32.pinf => F32.ninf
  | F32.ninf => F32.pinf
  | F32.nan => F32.nan

/-- Binary32 addition. -/
def F32.add : F32 → F32 → F32
  | F32.nan, _ => F32.nan
  | _, F32.nan => F32.nan
  | F32.pinf, F32.ninf => F32.nan
  | F32.ninf, F32.pinf => F32.nan
  | F32.pinf, _ => F32.pinf
  | _, F32.pinf => F32.pinf
  | F32.ninf, _ => F32.ninf
  | _, F32.ninf => F32.ninf
  | F32.fin a, F32.fin b => F32.round (a + b) 1

/-- Binary32 subtraction. -/
def F32.sub (x y : F32) : F32 := F32.add x (F32.neg y)

/-- Product of an infinity (negative when `neg`) with a finite value `n`. -/
def F32.inf_times (neg : Bool) (n : Int) : F32 :=
  if n = 0 then F32.nan
  else if (decide (n < 0)) = neg then F32.pinf else F32.ninf

/-- Binary32 multiplication. -/
def F32.mul : F32 → F32 → F32
  | F32.nan, _ => F32.nan
  | _, F32.nan => F32.nan
  | F32.pinf, F32.pinf => F32.pinf
  | F32.pinf, F32.ninf => F32.ninf
  | F32.ninf, F32.pinf => F32.ninf
  | F32.ninf, F32.ninf => F32.pinf
  | F32.pinf, F32.fin b => F32.inf_times false b
  | F32.ninf, F32.fin b => F32.inf_times true b
  | F32.fin a, F32.pinf => F32.inf_times false a
  | F32.fin a, F32.ninf => F32.inf_times true a
  | F32.fin a, F32.fin b => F32.round (a * b) F32.UNIT

/-- Binary32 division. A zero divisor is taken as `+0` (the only divisor of the
program is a converted `int`, whose zero is `+0`). -/
def F32.div : F32 → F32 → F32
  | F32.nan, _ => F32.nan
  | _, F32.nan => F32.nan
  | F32.pinf, F32.fin b => if b < 0 then F32.ninf else F32.pinf
  | F32.ninf, F32.fin b => if b < 0 then F32.pinf else F32.ninf
  | F32.fin _, F32.pinf => F32.fin 0
  | F32.fin _, F32.ninf => F32.fin 0
  | F32.pinf, _ => F32.nan
  | F32.ninf, _ => F32.nan
  | F32.fin a, F32.fin b =>
    if b = 0 then (if a = 0 then F32.nan else if a < 0 then F32.ninf else F32.pinf)
    else F32.round (a * (F32.UNIT : Int) * b.sign) b.natAbs

/-- Comparison `x <= y`; false whenever an operand is NaN. -/
def F32.le : F32 → F32 → Bool
  | F32.nan, _ => false
  | _, F32.nan => false
  | F32.ninf, _ => true
  | _, F32.pinf => true
  | F32.pinf, _ => false
  | _, F32.ninf => false
  | F32.fin a, F32.fin b => decide (a ≤ b)

/-- Comparison `x < y`; false whenever an operand is NaN. -/
def F32.lt : F32 → F32 → Bool
  | F32.nan, _ => false
  | _, F32.nan => false
  | F32.pinf, _ => false
  | _, F32.ninf => false
  | F32.ninf, _ => true
  | _, F32.pinf => true
  | F32.fin a, F32.fin b => decide (a < b)

/-- Position of a value on the integer line of units, the infinities standing
at the overflow threshold (`0` for NaN). -/
def F32.key : F32 → Int
  | F32.fin n => n
  | F32.pinf => (F32.OVERFLOW : Int)
  | F32.ninf => -(F32.OVERFLOW : Int)
  | F32.nan => 0

/-- The value is `+inf` or finite with at least `c` units. -/
def F32.GE (c : Int) (v : F32) : Prop := v = F32.pinf ∨ ∃ n : Int, v = F32.fin n ∧ c ≤ n

/-- The value is NaN, `+inf` or finite with at least `c` units. -/
def F32.NGE (c : Int) (v : F32) : Prop := v = F32.nan ∨ F32.GE c v

/-- Exact value of a finite binary32 value as a rational number (`0` for the
non-finite ones). -/
def F32.toRat : F32 → ℚ
  | F32.fin n => (n : ℚ) / 2 ^ 149
  | _ => 0

/-! ### `src/hit.cpp` -/

/-- Membership test `hit_test`:
`a * a * (y * y + z * z) - a * (x * x * x) + (x * x * x * x) <= 0.0f` with
`a = 2.0f`, every operation in binary32, in the order C++ evaluates it. -/
def hit_test (x y z : F32) : Bool :=
  let a := F32.lit 2 1
  F32.le
    (F32.add
      (F32.sub (F32.mul (F32.mul a a) (F32.add (F32.mul y y) (F32.mul z z)))
        (F32.mul a (F32.mul (F32.mul x x) x)))
      (F32.mul (F32.mul (F32.mul x x) x) x))
    (F32.lit 0 1)

/-- The table `range` of `get_axis_range`:
`{0.0f, 2.0f, -0.65f, 0.65f, -0.65f, 0.65f}`. -/
def get_axis_range : Fin 6 → F32
  | 0 => F32.lit 0 1
  | 1 => F32.lit 2 1
  | 2 => F32.neg (F32.lit 65 100)
  | 3 => F32.lit 65 100
  | 4 => F32.neg (F32.lit 65 100)
  | 5 => F32.lit 65 100

/-! ### `src/main.cpp`: generator -/

/-- The constant `xhh = 1.0f / 4294967296.0f`. -/
def xhh : F32 := F32.div (F32.lit 1 1) (F32.lit 4294967296 1)

/-- Method `Xorshift::next`: updates the state and returns it converted to
`float`. The result is the pair (returned value, new state). -/
def Xorshift.next (state : Nat) : F32 × Nat :=
  let x := Xorshift.step state
  (F32.ofNat x, x)

/-- Method `Xorshift::next_float`: `min + d * next() * xhh`. -/
def Xorshift.next_float (min d : F32) (state : Nat) : F32 × Nat :=
  let r := Xorshift.next state
  (F32.add min (F32.mul (F32.mul d r.1) xhh), r.2)

/-! ### `src/main.cpp`: `calculate_volume` -/

/-- Entry `range[0]`. -/
def x_min : F32 := get_axis_range 0
/-- Entry `range[1]`. -/
def x_max : F32 := get_axis_range 1
/-- Entry `range[2]`. -/
def y_min : F32 := get_axis_range 2
/-- Entry `range[3]`. -/
def y_max : F32 := get_axis_range 3
/-- Entry `range[4]`. -/
def z_min : F32 := get_axis_range 4
/-- Entry `range[5]`. -/
def z_max : F32 := get_axis_range 5

/-- Extent `xd = x_max - x_min`. -/
def xd : F32 := F32.sub x_max x_min
/-- Extent `yd = y_max - y_min`. -/
def yd : F32 := F32.sub y_max y_min
/-- Extent `zd = z_max - z_min`. -/
def zd : F32 := F32.sub z_max z_min

/-- One iteration of the sampling loop on the pair (generator state, hit
counter): draw `x`, `y`, `z` in this order and count the point when the
membership test `hit` accepts it. The loop index is not used by the body. -/
def loop_body (hit : F32 → F32 → F32 → Bool) (acc : Nat × Nat) (_i : Nat) : Nat × Nat :=
  let x := Xorshift.next_float x_min xd acc.1
  let y := Xorshift.next_float y_min yd x.2
  let z := Xorshift.next_float z_min zd y.2
  (z.2, if hit x.1 y.1 z.1 then acc.2 + 1 else acc.2)

/-- Chunk size of `schedule(static, 100000)`. -/
def CHUNK : Nat := 100000

/-- Worker executing iteration `i` under `schedule(static, 100000)` with a team
of `T` workers: chunks are dealt round-robin. -/
def schedule_owner (T i : Nat) : Nat := (i / CHUNK) % T

/-- The iterations of `[0, N)` that worker `k` of `T` executes, in order. -/
def worker_indices (T N k : Nat) : List Nat :=
  (List.range N).filter (fun i => decide (schedule_owner T i = k))

/-- Hit counter of one generator, seeded with `seed`, after running the loop
body over the iterations `idxs`. -/
def local_hit_count (hit : F32 → F32 → F32 → Bool) (seed : Nat) (idxs : List Nat) : Nat :=
  (idxs.foldl (loop_body hit) (seed, 0)).2

/-- Value of `hit_count` after the sampling branch of `calculate_volume`, for a
team of `num_threads` workers. `clock k` is the value `time(NULL)` returns to
worker `k`. In the parallel
branch every worker adds its local counter atomically, so the total is the sum
of the local counters; the sequential branch runs on worker `0`. -/
def hit_total (hit : F32 → F32 → F32 → Bool) (clock : Nat → Int) (num_threads : Nat)
    (num_points : Int) (use_omp : Bool) : Nat :=
  if use_omp then
    ((List.range num_threads).map (fun k =>
      local_hit_count hit (thread_seed (clock k) (k : Int))
        (worker_indices num_threads num_points.toNat k))).sum
  else
    local_hit_count hit (thread_seed (clock 0) 0) (List.range num_points.toNat)

/-- The estimate
`static_cast<float>(hit_count) / static_cast<float>(num_points) * xd * yd * zd`. -/
def volume_of (hit_count num_points : Int) : F32 :=
  F32.mul (F32.mul (F32.mul (F32.div (F32.ofInt hit_count) (F32.ofInt num_points)) xd) yd) zd

/-- The value `calculate_volume` writes to the output file, with the membership
test as a parameter (`hit_test` in the program). -/
def calculate_volume (hit : F32 → F32 → F32 → Bool) (clock : Nat → Int) (num_threads : Nat)
    (num_points : Int) (use_omp : Bool) : F32 :=
  volume_of (hit_total hit clock num_threads num_points use_omp : Nat) num_points

/-! ### `src/main.cpp`: `main` -/

/-- The four variables `main` sets in its argument loop. -/
structure Config where
  use_omp : Bool
  num_threads : Int
  input_file : Option String
  output_file : Option String
  deriving DecidableEq, Repr

/-- The argument loop of `main` over `argv[1..]`; `atoi` is `std::atoi`. A flag
that takes a value consumes the next argument when there is one. -/
def parse_args (atoi : String → Int) : List String → Config → Config
  | [], c => c
  | a :: rest, c =>
    let next_iteration := parse_args atoi rest c
    if a = "--no-omp" then
      parse_args atoi rest ⟨false, 1, c.input_file, c.output_file⟩
    else if a = "--omp-threads" then
      match rest with
      | [] => c
      | v :: rest2 =>
        if v ≠ "default" then
          parse_args atoi rest2 ⟨c.use_omp, atoi v, c.input_file, c.output_file⟩
        else next_iteration
    else if a = "--input" then
      match rest with
      | [] => c
      | v :: rest2 => parse_args atoi rest2 ⟨c.use_omp, c.num_threads, some v, c.output_file⟩
    else if a = "--output" then
      match rest with
      | [] => c
      | v :: rest2 => parse_args atoi rest2 ⟨c.use_omp, c.num_threads, c.input_file, some v⟩
    else next_iteration

/-- What `main` takes from its environment. -/
structure Env where
  /-- Value of `omp_get_max_threads()`. -/
  max_threads : Int
  /-- The function `std::atoi`. -/
  atoi : String → Int
  /-- Content of the file at a path, `none` when `is_open()` is false. -/
  open_input : String → Option String
  /-- Value of `num_points` after `input >> num_points` on a file content. -/
  read_int : String → Int

/-- What `main` does: it fails with a message on `std::cerr`, or it calls
`calculate_volume(num_threads, num_points, output_file, use_omp)`. -/
inductive Outcome where
  | failure (message : String)
  | run (num_threads : Int) (num_points : Int) (output_file : String) (use_omp : Bool)
  deriving DecidableEq, Repr

/-- Exit code of `main`. -/
def Outcome.exit_code : Outcome → Int
  | Outcome.failure _ => 1
  | Outcome.run _ _ _ _ => 0

/-- Whether `calculate_volume` is called. -/
def Outcome.calls_calculate_volume : Outcome → Bool
  | Outcome.failure _ => false
  | Outcome.run _ _ _ _ => true

/-- Configuration after the argument loop of `main`. -/
def main_config (env : Env) (args : List String) : Config :=
  parse_args env.atoi args ⟨true, env.max_threads, none, none⟩

/-- The function `main` on the arguments `argv[1..]`. -/
def main (env : Env) (args : List String) : Outcome :=
  let c := main_config env args
  match c.input_file with
  | none => Outcome.failure "Error: Input file not provided.\n"
  | some input_file =>
    match c.output_file with
    | none => Outcome.failure "Error: Output file not provided.\n"
    | some output_file =>
      match env.open_input input_file with
      | none => Outcome.failure "Error: Could not open input file.\n"
      | some content =>
        let num_points := env.read_int content
        if num_points ≤ 0 then
          Outcome.failure "Error: Number of points must be a positive integer.\n"
        else Outcome.run c.num_threads num_points output_file c.use_omp

/-- The configuration errors, as conditions on the arguments and the
environment: a required path is missing, the input file does not open, or the
number read from it is not positive. -/
def config_error (env : Env) (args : List String) : Prop :=
  "--input" ∉ args ∨ "--output" ∉ args ∨
  (main_config env args).input_file = none ∨
  (main_config env args).output_file = none ∨
  (∃ f, (main_config env args).input_file = some f ∧ env.open_input f = none) ∨
  (∃ f content, (main_config env args).input_file = some f ∧
    env.open_input f = some content ∧ env.read_int content ≤ 0)

end MonteCarlo

/-! ## Theorems -/

namespace MonteCarlo

open F32

/-! ### Rounding to nearest, ties to even -/

/-- The value `rne p q` is within `1/2` of `p / q`, and even at a tie. -/
theorem rne_spec (p q : Nat) (hq : 0 < q) :
    ((rne p q : ℚ) ≤ (p : ℚ) / q + 1 / 2) ∧ ((p : ℚ) / q ≤ rne p q + 1 / 2) ∧
    (((rne p q : ℚ) = (p : ℚ) / q + 1 / 2) → rne p q % 2 = 0) ∧
    (((p : ℚ) / q = rne p q + 1 / 2) → rne p q % 2 = 0) := by
  have hq' : (0 : ℚ) < q := by exact_mod_cast hq
  have hdm : (p : ℚ) = (q : ℚ) * ((p / q : Nat) : ℚ) + ((p % q : Nat) : ℚ) := by
    exact_mod_cast (Nat.div_add_mod p q).symm
  have hr : p % q < q := Nat.mod_lt _ hq
  have hr' : ((p % q : Nat) : ℚ) < q := by exact_mod_cast hr
  have hr0 : (0 : ℚ) ≤ ((p % q : Nat) : ℚ) := by positivity
  have hdiv : (p : ℚ) / q = ((p / q : Nat) : ℚ) + ((p % q : Nat) : ℚ) / q := by
    field_simp
    linarith
  set m := p / q with hm
  set r := p % q with hrdef
  unfold rne
  simp only [← hm, ← hrdef]
  by_cases h1 : 2 * r < q
  · have h1' : (2 : ℚ) * r < q := by exact_mod_cast h1
    have hfr : ((r : ℚ)) / q < 1 / 2 := by
      rw [div_lt_iff₀ hq']; linarith
    have hfr0 : (0 : ℚ) ≤ (r : ℚ) / q := by positivity
    simp only [h1, if_true]
    refine ⟨by linarith, by linarith, ?_, ?_⟩
    · intro h; exfalso; linarith
    · intro h; exfalso; linarith
  · by_cases h2 : q < 2 * r
    · have h2' : (q : ℚ) < 2 * r := by exact_mod_cast h2
      have hfr : 1 / 2 < ((r : ℚ)) / q := by
        rw [lt_div_iff₀ hq']; linarith
      have hfr1 : ((r : ℚ)) / q < 1 := by
        rw [div_lt_iff₀ hq']; linarith
      simp only [h1, h2, if_true, if_false]
      push_cast
      refine ⟨by linarith, by linarith, ?_, ?_⟩
      · intro h; exfalso; linarith
      · intro h; exfalso; linarith
    · have h3 : 2 * r = q := by omega
      have h3' : (2 : ℚ) * r = q := by exact_mod_cast h3
      have hfr : ((r : ℚ)) / q = 1 / 2 := by
        rw [div_eq_iff (ne_of_gt hq')]; linarith
      simp only [h1, h2, if_false]
      by_cases h4 : m % 2 = 0
      · rw [if_pos h4]
        refine ⟨by linarith, by linarith, fun _ => h4, fun _ => h4⟩
      · rw [if_neg h4]
        push_cast
        refine ⟨by linarith, by linarith, fun _ => by omega, fun _ => by omega⟩

/-- Rounding to the nearest integer is monotone. -/
theorem rne_mono (p1 q1 p2 q2 : Nat) (h1 : 0 < q1) (h2 : 0 < q2)
    (h : (p1 : ℚ) / q1 ≤ (p2 : ℚ) / q2) : rne p1 q1 ≤ rne p2 q2 := by
  obtain ⟨a1, a2, a3, a4⟩ := rne_spec p1 q1 h1
  obtain ⟨b1, b2, b3, b4⟩ := rne_spec p2 q2 h2
  by_contra hlt
  push_neg at hlt
  have hlt' : ((rne p2 q2 : ℚ)) + 1 ≤ rne p1 q1 := by exact_mod_cast hlt
  have e1 : (rne p1 q1 : ℚ) = (p1 : ℚ) / q1 + 1 / 2 := by linarith
  have e2 : (p2 : ℚ) / q2 = rne p2 q2 + 1 / 2 := by linarith
  have e3 : (rne p1 q1 : ℚ) = rne p2 q2 + 1 := by linarith
  have e3' : rne p1 q1 = rne p2 q2 + 1 := by exact_mod_cast e3
  have := a3 e1
  have := b4 e2
  omega

/-- An integer rounds to itself. -/
theorem rne_exact (n q : Nat) (hq : 0 < q) : rne (n * q) q = n := by
  obtain ⟨a1, a2, _, _⟩ := rne_spec (n * q) q hq
  have hq' : (0 : ℚ) < q := by exact_mod_cast hq
  have e : ((n * q : Nat) : ℚ) / q = n := by
    push_cast; field_simp
  rw [e] at a1 a2
  have h1 : (rne (n * q) q : ℚ) < n + 1 := by linarith
  have h2 : (n : ℚ) < rne (n * q) q + 1 := by linarith
  have h1' : rne (n * q) q < n + 1 := by exact_mod_cast h1
  have h2' : n < rne (n * q) q + 1 := by exact_mod_cast h2
  omega

/-- With enough fuel, `round_mag` rounds at the spacing `2^k` of the binade of
`p / q`. -/
theorem round_mag_spec (f : Nat) : ∀ (p q : Nat), 0 < q → p < 2 ^ f * 16777216 * q →
    ∃ k, round_mag f p q = 2 ^ k * rne p (2 ^ k * q) ∧ p < 2 ^ (24 + k) * q ∧
      (k = 0 ∨ 2 ^ (23 + k) * q ≤ p) := by
  induction f with
  | zero =>
    intro p q hq hp
    refine ⟨0, ?_, ?_, Or.inl rfl⟩
    · simp [round_mag]
    · simpa using hp
  | succ f ih =>
    intro p q hq hp
    by_cases hlt : p < 16777216 * q
    · refine ⟨0, ?_, ?_, Or.inl rfl⟩
      · simp [round_mag, hlt]
      · simpa using hlt
    · obtain ⟨k, hk1, hk2, hk3⟩ := ih p (2 * q) (by omega) (by
        rw [pow_succ] at hp; nlinarith)
      refine ⟨k + 1, ?_, ?_, Or.inr ?_⟩
      · simp only [round_mag, hlt, if_false, hk1]
        rw [pow_succ]
        have : 2 ^ k * (2 * q) = 2 ^ k * 2 * q := by ring
        rw [this]; ring
      · have : 2 ^ (24 + (k + 1)) * q = 2 ^ (24 + k) * (2 * q) := by
          rw [← add_assoc, pow_succ]; ring
        rw [this]; exact hk2
      · rcases hk3 with rfl | hk3
        · simp; omega
        · have : 2 ^ (23 + (k + 1)) * q = 2 ^ (23 + k) * (2 * q) := by
            rw [← add_assoc, pow_succ]; ring
          rw [this]; exact hk3

theorem mag_spec (p q : Nat) (hq : 0 < q) :
    ∃ k, mag p q = 2 ^ k * rne p (2 ^ k * q) ∧ p < 2 ^ (24 + k) * q ∧
      (k = 0 ∨ 2 ^ (23 + k) * q ≤ p) := by
  apply round_mag_spec p p q hq
  have h1 : p < 2 ^ p := Nat.lt_two_pow p
  have h2 : 2 ^ p ≤ 2 ^ p * 16777216 * q := by
    have : 1 ≤ 16777216 * q := by omega
    calc 2 ^ p = 2 ^ p * 1 := by ring
      _ ≤ 2 ^ p * (16777216 * q) := Nat.mul_le_mul_left _ this
      _ = 2 ^ p * 16777216 * q := by ring
  omega

theorem ratio_lt (p q c : Nat) (hq : 0 < q) (h : p < c * q) : (p : ℚ) / q < c := by
  have hq' : (0 : ℚ) < q := by exact_mod_cast hq
  rw [div_lt_iff₀ hq']
  exact_mod_cast h

theorem ratio_ge (p q c : Nat) (hq : 0 < q) (h : c * q ≤ p) : (c : ℚ) ≤ (p : ℚ) / q := by
  have hq' : (0 : ℚ) < q := by exact_mod_cast hq
  rw [le_div_iff₀ hq']
  exact_mod_cast h

theorem ratio_scale (p q k : Nat) (hq : 0 < q) :
    (p : ℚ) / ((2 ^ k * q : Nat) : ℚ) = (p : ℚ) / q / 2 ^ k := by
  have hq' : (q : ℚ) ≠ 0 := by exact_mod_cast (ne_of_gt hq)
  push_cast
  field_simp
  left; ring

theorem rne_le_of_lt (p q c : Nat) (hq : 0 < q) (h : p < c * q) : rne p q ≤ c := by
  have := rne_mono p q (c * 1) 1 hq (by norm_num) (by
    have := ratio_lt p q c hq h
    push_cast; simp; linarith)
  rwa [rne_exact] at this
  norm_num

theorem rne_ge_of_le (p q c : Nat) (hq : 0 < q) (h : c * q ≤ p) : c ≤ rne p q := by
  have := rne_mono (c * 1) 1 p q (by norm_num) hq (by
    have := ratio_ge p q c hq h
    push_cast; simp; linarith)
  rwa [rne_exact] at this
  norm_num

/-- Rounding of magnitudes is monotone. -/
theorem mag_mono (p1 q1 p2 q2 : Nat) (h1 : 0 < q1) (h2 : 0 < q2)
    (h : (p1 : ℚ) / q1 ≤ (p2 : ℚ) / q2) : mag p1 q1 ≤ mag p2 q2 := by
  obtain ⟨k1, e1, u1, l1⟩ := mag_spec p1 q1 h1
  obtain ⟨k2, e2, u2, l2⟩ := mag_spec p2 q2 h2
  have hk1 : 0 < 2 ^ k1 * q1 := by positivity
  have hk2 : 0 < 2 ^ k2 * q2 := by positivity
  rw [e1, e2]
  rcases lt_trichotomy k1 k2 with hlt | heq | hgt
  · have A : rne p1 (2 ^ k1 * q1) ≤ 2 ^ 24 := by
      apply rne_le_of_lt _ _ _ hk1
      have : 2 ^ (24 + k1) * q1 = 2 ^ 24 * (2 ^ k1 * q1) := by rw [pow_add]; ring
      omega
    have B : 2 ^ 23 ≤ rne p2 (2 ^ k2 * q2) := by
      apply rne_ge_of_le _ _ _ hk2
      rcases l2 with l2 | l2
      · omega
      · have : 2 ^ (23 + k2) * q2 = 2 ^ 23 * (2 ^ k2 * q2) := by rw [pow_add]; ring
        omega
    calc 2 ^ k1 * rne p1 (2 ^ k1 * q1) ≤ 2 ^ k1 * 2 ^ 24 := Nat.mul_le_mul_left _ A
      _ = 2 ^ (24 + k1) := by rw [pow_add]; ring
      _ ≤ 2 ^ (23 + k2) := Nat.pow_le_pow_right (by norm_num) (by omega)
      _ = 2 ^ k2 * 2 ^ 23 := by rw [pow_add]; ring
      _ ≤ 2 ^ k2 * rne p2 (2 ^ k2 * q2) := Nat.mul_le_mul_left _ B
  · subst heq
    apply Nat.mul_le_mul_left
    apply rne_mono _ _ _ _ hk1 hk2
    rw [ratio_scale _ _ _ h1, ratio_scale _ _ _ h2]
    apply div_le_div_of_nonneg_right h
    positivity
  · exfalso
    rcases l1 with l1 | l1
    · omega
    · have a : ((2 ^ (23 + k1) : Nat) : ℚ) ≤ (p1 : ℚ) / q1 := ratio_ge _ _ _ h1 l1
      have b : (p2 : ℚ) / q2 < ((2 ^ (24 + k2) : Nat) : ℚ) := ratio_lt _ _ _ h2 u2
      have c : 2 ^ (24 + k2) ≤ 2 ^ (23 + k1) := Nat.pow_le_pow_right (by norm_num) (by omega)
      have c' : ((2 ^ (24 + k2) : Nat) : ℚ) ≤ ((2 ^ (23 + k1) : Nat) : ℚ) := by exact_mod_cast c
      linarith

/-- The rounded magnitude depends on the ratio only. -/
theorem mag_congr (p1 q1 p2 q2 : Nat) (h1 : 0 < q1) (h2 : 0 < q2)
    (h : (p1 : ℚ) / q1 = (p2 : ℚ) / q2) : mag p1 q1 = mag p2 q2 :=
  le_antisymm (mag_mono _ _ _ _ h1 h2 (le_of_eq h)) (mag_mono _ _ _ _ h2 h1 (le_of_eq h.symm))

/-- Error of the magnitude rounding: half a spacing `2^k`, where `k = 0` or the
value is at least `2^(23+k)`. -/
theorem mag_err (p q : Nat) (hq : 0 < q) :
    ∃ k : Nat, |(mag p q : ℚ) - (p : ℚ) / q| ≤ 2 ^ k / 2 ∧ (p : ℚ) / q < 2 ^ (24 + k) ∧
      (k = 0 ∨ (2 : ℚ) ^ (23 + k) ≤ (p : ℚ) / q) := by
  obtain ⟨k, e, u, l⟩ := mag_spec p q hq
  have hk : 0 < 2 ^ k * q := by positivity
  obtain ⟨a1, a2, _, _⟩ := rne_spec p (2 ^ k * q) hk
  rw [ratio_scale _ _ _ hq] at a1 a2
  refine ⟨k, ?_, ?_, ?_⟩
  · rw [e, abs_le]
    have hpos : (0 : ℚ) < 2 ^ k := by positivity
    push_cast
    rw [div_add' _ _ _ (ne_of_gt hpos), le_div_iff₀ hpos] at a1
    rw [div_le_iff₀ hpos] at a2
    constructor <;> nlinarith
  · have := ratio_lt _ _ _ hq u
    exact_mod_cast this
  · rcases l with l | l
    · exact Or.inl l
    · right
      have := ratio_ge _ _ _ hq l
      exact_mod_cast this

theorem round_ne_nan (num : Int) (den : Nat) : F32.round num den ≠ F32.nan := by
  unfold F32.round
  simp only
  split_ifs <;> simp

theorem key_round (num : Int) (den : Nat) :
    key (F32.round num den)
      = (if num < 0 then -1 else 1) * ((min (mag num.natAbs den) OVERFLOW : Nat) : Int) := by
  unfold F32.round
  simp only
  by_cases h : OVERFLOW ≤ mag num.natAbs den
  · rw [if_pos h, Nat.min_eq_right h]
    split_ifs <;> simp [key]
  · rw [if_neg h, Nat.min_eq_left (by omega)]
    split_ifs <;> simp [key]

theorem abs_ratio (num : Int) (den : Nat) :
    ((num.natAbs : Nat) : ℚ) / den = |(num : ℚ) / den| := by
  rw [abs_div, Nat.cast_natAbs, Nat.abs_cast]
  simp

theorem ratio_neg_iff (num : Int) (den : Nat) (hd : 0 < den) :
    (num : ℚ) / den < 0 ↔ num < 0 := by
  have hd' : (0 : ℚ) < den := by exact_mod_cast hd
  rw [div_neg_iff]
  constructor
  · rintro (⟨_, h⟩ | ⟨h, _⟩)
    · linarith
    · exact_mod_cast h
  · intro h
    right
    exact ⟨by exact_mod_cast h, hd'⟩

/-- Rounding is monotone. -/
theorem key_round_mono (n1 : Int) (d1 : Nat) (n2 : Int) (d2 : Nat) (h1 : 0 < d1) (h2 : 0 < d2)
    (h : (n1 : ℚ) / d1 ≤ (n2 : ℚ) / d2) :
    key (F32.round n1 d1) ≤ key (F32.round n2 d2) := by
  rw [key_round, key_round]
  have s1 := ratio_neg_iff n1 d1 h1
  have s2 := ratio_neg_iff n2 d2 h2
  have a1 := abs_ratio n1 d1
  have a2 := abs_ratio n2 d2
  by_cases c1 : n1 < 0 <;> by_cases c2 : n2 < 0
  · have v1 := s1.mpr c1
    have v2 := s2.mpr c2
    rw [abs_of_neg v1] at a1
    rw [abs_of_neg v2] at a2
    have := mag_mono n2.natAbs d2 n1.natAbs d1 h2 h1 (by rw [a1, a2]; linarith)
    simp only [c1, c2, if_true]
    have : min (mag n2.natAbs d2) OVERFLOW ≤ min (mag n1.natAbs d1) OVERFLOW :=
      min_le_min this le_rfl
    omega
  · simp only [c1, c2, if_true, if_false]
    omega
  · exfalso
    have v2 := s2.mpr c2
    have v1 : ¬ (n1 : ℚ) / d1 < 0 := fun hh => c1 (s1.mp hh)
    linarith
  · have v1 : ¬ (n1 : ℚ) / d1 < 0 := fun hh => c1 (s1.mp hh)
    have v2 : ¬ (n2 : ℚ) / d2 < 0 := fun hh => c2 (s2.mp hh)
    rw [abs_of_nonneg (by linarith)] at a1
    rw [abs_of_nonneg (by linarith)] at a2
    have := mag_mono n1.natAbs d1 n2.natAbs d2 h1 h2 (by rw [a1, a2]; exact h)
    simp only [c1, c2, if_false]
    have : min (mag n1.natAbs d1) OVERFLOW ≤ min (mag n2.natAbs d2) OVERFLOW :=
      min_le_min this le_rfl
    omega

theorem eq_fin_of_key (x : F32) (hx : x ≠ F32.nan) (h1 : -(OVERFLOW : Int) < key x)
    (h2 : key x < (OVERFLOW : Int)) : x = F32.fin (key x) := by
  cases x <;> simp_all [key]

/-- The rounded value depends on the ratio only. -/
theorem round_congr (n1 : Int) (d1 : Nat) (n2 : Int) (d2 : Nat) (h1 : 0 < d1) (h2 : 0 < d2)
    (h : (n1 : ℚ) / d1 = (n2 : ℚ) / d2) : F32.round n1 d1 = F32.round n2 d2 := by
  have s1 := ratio_neg_iff n1 d1 h1
  have s2 := ratio_neg_iff n2 d2 h2
  have hs : n1 < 0 ↔ n2 < 0 := by rw [← s1, ← s2, h]
  have hm : mag n1.natAbs d1 = mag n2.natAbs d2 := by
    apply mag_congr _ _ _ _ h1 h2
    rw [abs_ratio, abs_ratio, h]
  unfold F32.round
  simp only [hm, hs]

/-- A binary32 value is the rounding of itself. -/
theorem round_of_valid (n : Int) (hv : F32.Valid (F32.fin n)) (num : Int) (den : Nat)
    (hd : 0 < den) (h : (num : ℚ) / den = n) : F32.round num den = F32.fin n := by
  rw [round_congr num den n 1 hd (by norm_num) (by simpa using h)]
  obtain ⟨hv1, hv2⟩ := hv
  unfold F32.round
  simp only [hv2]
  rw [if_neg (by omega)]
  congr 1
  split_ifs <;> omega

/-- Rounding of a value below `2^(24+j)` units is finite, with error at most
`2^j / 2` units. -/
theorem round_fin_err (num : Int) (den : Nat) (hd : 0 < den) (j : Nat) (hj : j + 25 ≤ 277)
    (h : |(num : ℚ) / den| < 2 ^ (24 + j)) :
    ∃ m : Int, F32.round num den = F32.fin m ∧ |(m : ℚ) - (num : ℚ) / den| ≤ 2 ^ j / 2 := by
  obtain ⟨k, e1, e2, e3⟩ := mag_err num.natAbs den hd
  rw [abs_ratio] at e1 e2 e3
  have hkj : k ≤ j := by
    rcases e3 with e3 | e3
    · omega
    · have : (2 : ℚ) ^ (23 + k) < 2 ^ (24 + j) := lt_of_le_of_lt e3 h
      have := (pow_lt_pow_iff_right₀ (by norm_num : (1 : ℚ) < 2)).mp this
      omega
  have hkj' : (2 : ℚ) ^ k ≤ 2 ^ j := pow_le_pow_right₀ (by norm_num) hkj
  have hm : (mag num.natAbs den : ℚ) < 2 ^ (25 + j) := by
    have := (abs_le.mp e1).2
    have e : (2 : ℚ) ^ (25 + j) = 2 * 2 ^ (24 + j) := by rw [← pow_succ']; ring_nf
    have e' : (2 : ℚ) ^ (24 + j) = 2 ^ 24 * 2 ^ j := by rw [pow_add]
    have : (0 : ℚ) < 2 ^ j := by positivity
    nlinarith
  have hm' : mag num.natAbs den < OVERFLOW := by
    have e : (2 : ℚ) ^ (25 + j) ≤ 2 ^ 128 * 2 ^ 149 := by
      rw [← pow_add]
      exact pow_le_pow_right₀ (by norm_num) (by omega)
    have : (mag num.natAbs den : ℚ) < ((2 ^ 128 * 2 ^ 149 : Nat) : ℚ) := by push_cast; linarith
    unfold OVERFLOW
    exact_mod_cast this
  unfold F32.round
  simp only
  rw [if_neg (by omega)]
  refine ⟨_, rfl, ?_⟩
  by_cases c : num < 0
  · have v := (ratio_neg_iff num den hd).mpr c
    have ev : |(num : ℚ) / den| = -((num : ℚ) / den) := abs_of_neg v
    rw [ev] at e1
    rw [if_pos c]
    push_cast
    rw [abs_le] at e1 ⊢
    constructor <;> linarith [e1.1, e1.2]
  · have v : ¬ (num : ℚ) / den < 0 := fun hh => c ((ratio_neg_iff num den hd).mp hh)
    have ev : |(num : ℚ) / den| = (num : ℚ) / den := abs_of_nonneg (by linarith)
    rw [ev] at e1
    rw [if_neg c]
    push_cast
    rw [abs_le] at e1 ⊢
    constructor <;> linarith [e1.1, e1.2]

/-! ### The xorshift recurrence -/

theorem shl_xor_zero_13 (x : Nat) (h : x < 4294967296)
    (hz : x ^^^ ((x <<< 13) % 4294967296) = 0) : x = 0 := by
  rw [Nat.xor_eq_zero, Nat.shiftLeft_eq] at hz
  omega

theorem shl_xor_zero_17 (x : Nat) (h : x < 4294967296)
    (hz : x ^^^ ((x <<< 17) % 4294967296) = 0) : x = 0 := by
  rw [Nat.xor_eq_zero, Nat.shiftLeft_eq] at hz
  omega

theorem shr_xor_zero_7 (x : Nat) (hz : x ^^^ (x >>> 7) = 0) : x = 0 := by
  rw [Nat.xor_eq_zero, Nat.shiftRight_eq_div_pow] at hz
  omega

theorem step_zero : Xorshift.step 0 = 0 := by decide

theorem step_lt (x : Nat) (h : x < UINT_MOD) : Xorshift.step x < UINT_MOD := by
  unfold Xorshift.step UINT_MOD at *
  have e : (4294967296 : Nat) = 2 ^ 32 := by norm_num
  simp only [e] at *
  have h1 : x ^^^ ((x <<< 13) % 2 ^ 32) < 2 ^ 32 :=
    Nat.xor_lt_two_pow h (Nat.mod_lt _ (by positivity))
  have h2 : (x ^^^ ((x <<< 13) % 2 ^ 32)) >>> 7 < 2 ^ 32 := by
    rw [Nat.shiftRight_eq_div_pow]
    exact lt_of_le_of_lt (Nat.div_le_self _ _) h1
  exact Nat.xor_lt_two_pow (Nat.xor_lt_two_pow h1 h2) (Nat.mod_lt _ (by positivity))

theorem step_eq_zero (x : Nat) (hx : x < UINT_MOD) (h : Xorshift.step x = 0) : x = 0 := by
  unfold Xorshift.step UINT_MOD at *
  have e : (4294967296 : Nat) = 2 ^ 32 := by norm_num
  have h1 : x ^^^ ((x <<< 13) % 4294967296) < 4294967296 := by
    rw [e]; exact Nat.xor_lt_two_pow (by rw [← e]; exact hx) (Nat.mod_lt _ (by positivity))
  have h2 : (x ^^^ ((x <<< 13) % 4294967296)) >>> 7 < 4294967296 := by
    rw [Nat.shiftRight_eq_div_pow]
    exact lt_of_le_of_lt (Nat.div_le_self _ _) h1
  have h3 : (x ^^^ ((x <<< 13) % 4294967296)) ^^^ ((x ^^^ ((x <<< 13) % 4294967296)) >>> 7)
      < 4294967296 := by
    rw [e] at h1 h2 ⊢; exact Nat.xor_lt_two_pow h1 h2
  have z2 := shl_xor_zero_17 _ h3 h
  have z1 := shr_xor_zero_7 _ z2
  exact shl_xor_zero_13 _ hx z1

theorem state_after_lt (n x : Nat) (hx : x < UINT_MOD) : Xorshift.state_after n x < UINT_MOD := by
  induction n with
  | zero => exact hx
  | succ n ih => exact step_lt _ ih

theorem state_after_zero (n : Nat) : Xorshift.state_after n 0 = 0 := by
  induction n with
  | zero => rfl
  | succ n ih => simp [Xorshift.state_after, ih, step_zero]

theorem state_after_ne_zero (n x : Nat) (hx : x < UINT_MOD) (h0 : x ≠ 0) :
    Xorshift.state_after n x ≠ 0 := by
  induction n with
  | zero => exact h0
  | succ n ih =>
    intro h
    exact ih (step_eq_zero _ (state_after_lt n x hx) h)

/-- C7: one step of the xorshift recurrence maps a 32-bit state to `0` exactly
when the state is `0`; seeded with `0` the generator stays in state `0` and
every draw returns `0.0`; seeded with a non-zero value it never reaches state
`0`. -/
theorem xorshift_zero_iff (x n : Nat) (hx : x < UINT_MOD) :
    (Xorshift.step x = 0 ↔ x = 0) ∧
    (Xorshift.state_after n 0 = 0 ∧ Xorshift.next (Xorshift.state_after n 0) = (F32.fin 0, 0)) ∧
    (x ≠ 0 → Xorshift.state_after n x ≠ 0) := by
  refine ⟨⟨step_eq_zero x hx, fun h => by rw [h]; exact step_zero⟩, ⟨state_after_zero n, ?_⟩,
    state_after_ne_zero n x hx⟩
  rw [state_after_zero]
  decide

/-- The statement of C7 at the state `2463534242` and `n = 3` draws. -/
theorem xorshift_zero_iff_witness :
    (Xorshift.step 2463534242 = 0 ↔ 2463534242 = 0) ∧
    (Xorshift.state_after 3 0 = 0 ∧ Xorshift.next (Xorshift.state_after 3 0) = (F32.fin 0, 0)) ∧
    (2463534242 ≠ 0 → Xorshift.state_after 3 2463534242 ≠ 0) :=
  xorshift_zero_iff 2463534242 3 (by decide)

/-! ### Seeds -/

/-- C6 (as stated, refuted): the wall-clock value `2^32 - 1` gives worker `1`
the seed `0`, and the wall-clock value `2^32` gives worker `0` (also the
sequential branch) the seed `0`. -/
theorem thread_seed_zero_counterexample :
    thread_seed 4294967295 1 = 0 ∧ thread_seed 4294967296 0 = 0 := by
  decide

/-- C6 (amended): the seed handed to the generator is `0` exactly when
`t + k` is a multiple of `2^32`. -/
theorem thread_seed_eq_zero_iff (t k : Int) :
    thread_seed t k = 0 ↔ (4294967296 : Int) ∣ (t + k) := by
  unfold thread_seed UINT_MOD
  have h0 : 0 ≤ (t + k) % 4294967296 := Int.emod_nonneg _ (by norm_num)
  constructor
  · intro h
    apply Int.dvd_of_emod_eq_zero
    have : ((t + k) % ((4294967296 : Nat) : Int)).toNat = 0 := h
    push_cast at this
    omega
  · intro h
    have := Int.emod_eq_zero_of_dvd h
    push_cast
    omega

/-! ### The argument loop of `main` -/

theorem parse_args_nil (atoi : String → Int) (c : Config) : parse_args atoi [] c = c := by
  simp [parse_args]

theorem parse_args_no_omp (atoi : String → Int) (rest : List String) (c : Config) :
    parse_args atoi ("--no-omp" :: rest) c
      = parse_args atoi rest ⟨false, 1, c.input_file, c.output_file⟩ := by
  cases rest <;> simp [parse_args]

/-- The loop never switches `use_omp` back on. -/
theorem parse_args_use_omp_false (atoi : String → Int) (n : Nat) :
    ∀ (l : List String) (c : Config), l.length ≤ n → c.use_omp = false →
      (parse_args atoi l c).use_omp = false := by
  induction n with
  | zero =>
    intro l c hl hc
    have : l = [] := List.length_eq_zero.mp (by omega)
    subst this
    simpa [parse_args] using hc
  | succ n ih =>
    intro l c hl hc
    cases l with
    | nil => simpa [parse_args] using hc
    | cons a rest =>
      have hrest : rest.length ≤ n := by simp at hl; omega
      cases rest with
      | nil =>
        simp only [parse_args]
        split_ifs <;> simp_all
      | cons v rest2 =>
        have hrest2 : rest2.length ≤ n := by simp at hrest; omega
        simp only [parse_args]
        split_ifs
        all_goals first
          | exact ih _ _ hrest hc
          | exact ih _ _ hrest2 hc
          | exact ih _ _ hrest rfl

/-- Without `--omp-threads`, the loop changes `num_threads` only to `1`. -/
theorem parse_args_num_threads_one (atoi : String → Int) (n : Nat) :
    ∀ (l : List String) (c : Config), l.length ≤ n → "--omp-threads" ∉ l →
      c.num_threads = 1 → (parse_args atoi l c).num_threads = 1 := by
  induction n with
  | zero =>
    intro l c hl _ hc
    have : l = [] := List.length_eq_zero.mp (by omega)
    subst this
    simpa [parse_args] using hc
  | succ n ih =>
    intro l c hl hmem hc
    cases l with
    | nil => simpa [parse_args] using hc
    | cons a rest =>
      have hrest : rest.length ≤ n := by simp at hl; omega
      have ha : a ≠ "--omp-threads" := fun h => hmem (by simp [h])
      have hmr : "--omp-threads" ∉ rest := fun h => hmem (by simp [h])
      cases rest with
      | nil =>
        simp only [parse_args]
        split_ifs <;> simp_all
      | cons v rest2 =>
        have hrest2 : rest2.length ≤ n := by simp at hrest; omega
        have hmr2 : "--omp-threads" ∉ rest2 := fun h => hmr (by simp [h])
        simp only [parse_args]
        split_ifs
        all_goals first
          | exact ih _ _ hrest hmr hc
          | exact ih _ _ hrest2 hmr2 hc
          | exact ih _ _ hrest hmr rfl

/-- A prefix whose last argument is not a flag that takes a value is processed
on its own: the loop reaches the argument after the prefix as a flag. -/
theorem parse_args_append (atoi : String → Int) (l : List String) (n : Nat) :
    ∀ (pre : List String) (c : Config), pre.length ≤ n →
      (∀ a, pre.getLast? = some a → a ≠ "--omp-threads" ∧ a ≠ "--input" ∧ a ≠ "--output") →
      ∃ c2, parse_args atoi (pre ++ l) c = parse_args atoi l c2 := by
  induction n with
  | zero =>
    intro pre c hl _
    have : pre = [] := List.length_eq_zero.mp (by omega)
    subst this
    exact ⟨c, rfl⟩
  | succ n ih =>
    intro pre c hl hlast
    cases pre with
    | nil => exact ⟨c, rfl⟩
    | cons a rest =>
      have hrest : rest.length ≤ n := by simp at hl; omega
      cases rest with
      | nil =>
        obtain ⟨h1, h2, h3⟩ := hlast a (by simp)
        cases l with
        | nil =>
          refine ⟨parse_args atoi [a] c, ?_⟩
          simp [parse_args]
        | cons b l2 =>
          simp only [List.cons_append, List.nil_append, parse_args, h1, h2, h3, if_false]
          split_ifs
          · exact ⟨_, rfl⟩
          · exact ⟨_, rfl⟩
      | cons v rest2 =>
        have hrest2 : rest2.length ≤ n := by simp at hrest; omega
        have hl1 : ∀ b, (v :: rest2).getLast? = some b →
            b ≠ "--omp-threads" ∧ b ≠ "--input" ∧ b ≠ "--output" := by
          intro b hb
          apply hlast b
          rw [List.getLast?_cons_cons]
          exact hb
        have hl2 : ∀ b, rest2.getLast? = some b →
            b ≠ "--omp-threads" ∧ b ≠ "--input" ∧ b ≠ "--output" := by
          intro b hb
          apply hl1 b
          cases rest2 with
          | nil => simp at hb
          | cons w r3 => rw [List.getLast?_cons_cons]; exact hb
        simp only [List.cons_append, parse_args]
        split_ifs
        all_goals first
          | exact ih (v :: rest2) _ hrest hl1
          | exact ih rest2 _ hrest2 hl2

/-- C8 (as stated, refuted): with `--no-omp` in the list, a later
`--omp-threads 4` leaves `num_threads = 4`, and a `--no-omp` taken as the value
of `--input` leaves `use_omp = true`. -/
theorem no_omp_counterexample :
    ("--no-omp" ∈ ["--no-omp", "--omp-threads", "4"] ∧
      (parse_args (fun _ => 4) ["--no-omp", "--omp-threads", "4"] ⟨true, 8, none, none⟩)
        = ⟨false, 4, none, none⟩) ∧
    ("--no-omp" ∈ ["--input", "--no-omp"] ∧
      (parse_args (fun _ => 4) ["--input", "--no-omp"] ⟨true, 8, none, none⟩)
        = ⟨true, 8, some "--no-omp", none⟩) := by
  decide

/-- C8 (amended): when `--no-omp` stands at a position that does not directly
follow `--omp-threads`, `--input` or `--output`, the configuration after the
argument loop has `use_omp = false`, and `num_threads = 1` when no
`--omp-threads` follows that `--no-omp`. -/
theorem no_omp_config (env : Env) (pre post : List String)
    (hprev : ∀ a, pre.getLast? = some a →
      a ≠ "--omp-threads" ∧ a ≠ "--input" ∧ a ≠ "--output") :
    (main_config env (pre ++ "--no-omp" :: post)).use_omp = false ∧
    ("--omp-threads" ∉ post →
      (main_config env (pre ++ "--no-omp" :: post)).num_threads = 1) := by
  unfold main_config
  obtain ⟨c2, hc2⟩ := parse_args_append env.atoi ("--no-omp" :: post) pre.length pre
    ⟨true, env.max_threads, none, none⟩ le_rfl hprev
  rw [hc2, parse_args_no_omp]
  exact ⟨parse_args_use_omp_false env.atoi post.length post _ le_rfl rfl,
    fun h => parse_args_num_threads_one env.atoi post.length post _ le_rfl h rfl⟩

/-- The amended C8 on `--omp-threads 4 --input a --no-omp --output b`. -/
theorem no_omp_config_witness :
    (main_config ⟨8, fun _ => 4, fun _ => none, fun _ => 0⟩
      (["--omp-threads", "4", "--input", "a"] ++ "--no-omp" :: ["--output", "b"])).use_omp
        = false ∧
    ("--omp-threads" ∉ ["--output", "b"] →
      (main_config ⟨8, fun _ => 4, fun _ => none, fun _ => 0⟩
        (["--omp-threads", "4", "--input", "a"] ++ "--no-omp" :: ["--output", "b"])).num_threads
          = 1) :=
  no_omp_config ⟨8, fun _ => 4, fun _ => none, fun _ => 0⟩
    ["--omp-threads", "4", "--input", "a"] ["--output", "b"] (by decide)

/-! ### Configuration errors of `main` -/

/-- Without `--input` among the arguments, `input_file` keeps its value. -/
theorem parse_args_input_file (atoi : String → Int) (n : Nat) :
    ∀ (l : List String) (c : Config), l.length ≤ n → "--input" ∉ l →
      (parse_args atoi l c).input_file = c.input_file := by
  induction n with
  | zero =>
    intro l c hl _
    have : l = [] := List.length_eq_zero.mp (by omega)
    subst this
    simp [parse_args]
  | succ n ih =>
    intro l c hl hmem
    cases l with
    | nil => simp [parse_args]
    | cons a rest =>
      have hrest : rest.length ≤ n := by simp at hl; omega
      have ha : a ≠ "--input" := fun h => hmem (by simp [h])
      have hmr : "--input" ∉ rest := fun h => hmem (by simp [h])
      cases rest with
      | nil =>
        simp only [parse_args]
        split_ifs <;> simp_all
      | cons v rest2 =>
        have hrest2 : rest2.length ≤ n := by simp at hrest; omega
        have hmr2 : "--input" ∉ rest2 := fun h => hmr (by simp [h])
        simp only [parse_args]
        split_ifs
        all_goals first
          | exact ih _ _ hrest hmr
          | exact ih _ _ hrest2 hmr2

/-- Without `--output` among the arguments, `output_file` keeps its value. -/
theorem parse_args_output_file (atoi : String → Int) (n : Nat) :
    ∀ (l : List String) (c : Config), l.length ≤ n → "--output" ∉ l →
      (parse_args atoi l c).output_file = c.output_file := by
  induction n with
  | zero =>
    intro l c hl _
    have : l = [] := List.length_eq_zero.mp (by omega)
    subst this
    simp [parse_args]
  | succ n ih =>
    intro l c hl hmem
    cases l with
    | nil => simp [parse_args]
    | cons a rest =>
      have hrest : rest.length ≤ n := by simp at hl; omega
      have ha : a ≠ "--output" := fun h => hmem (by simp [h])
      have hmr : "--output" ∉ rest := fun h => hmem (by simp [h])
      cases rest with
      | nil =>
        simp only [parse_args]
        split_ifs <;> simp_all
      | cons v rest2 =>
        have hrest2 : rest2.length ≤ n := by simp at hrest; omega
        have hmr2 : "--output" ∉ rest2 := fun h => hmr (by simp [h])
        simp only [parse_args]
        split_ifs
        all_goals first
          | exact ih _ _ hrest hmr
          | exact ih _ _ hrest2 hmr2

/-- C9: on every configuration error `main` returns exit code `1` and does not
call `calculate_volume`. -/
theorem main_config_error (env : Env) (args : List String) (h : config_error env args) :
    (main env args).exit_code = 1 ∧ (main env args).calls_calculate_volume = false := by
  have key : ∀ o : Outcome, (∃ m, o = Outcome.failure m) →
      o.exit_code = 1 ∧ o.calls_calculate_volume = false := by
    rintro o ⟨m, rfl⟩
    exact ⟨rfl, rfl⟩
  apply key
  have hin : "--input" ∉ args → (main_config env args).input_file = none := fun hm =>
    parse_args_input_file env.atoi args.length args _ le_rfl hm
  have hout : "--output" ∉ args → (main_config env args).output_file = none := fun hm =>
    parse_args_output_file env.atoi args.length args _ le_rfl hm
  unfold main
  rcases h with h | h | h | h | ⟨f, h, ho⟩ | ⟨f, content, h, ho, hn⟩
  · simp [hin h]
  · cases hi : (main_config env args).input_file <;> simp [hi, hout h]
  · simp [h]
  · cases hi : (main_config env args).input_file <;> simp [hi, h]
  · cases hi : (main_config env args).output_file <;> simp [hi, h, ho]
  · cases hi : (main_config env args).output_file <;> simp [hi, h, ho, hn]

/-- The statement of C9 on an input file that holds `0`. -/
theorem main_config_error_witness :
    (main ⟨8, fun _ => 4, fun _ => some "0", fun _ => 0⟩
      ["--input", "in.txt", "--output", "out.txt"]).exit_code = 1 ∧
    (main ⟨8, fun _ => 4, fun _ => some "0", fun _ => 0⟩
      ["--input", "in.txt", "--output", "out.txt"]).calls_calculate_volume = false :=
  main_config_error ⟨8, fun _ => 4, fun _ => some "0", fun _ => 0⟩
    ["--input", "in.txt", "--output", "out.txt"]
    (Or.inr (Or.inr (Or.inr (Or.inr (Or.inr ⟨"in.txt", "0", by decide, rfl, by decide⟩)))))

/-! ### The sampling loops -/

/-- The hit counter never decreases and grows by at most one per iteration. -/
theorem foldl_loop_body_count (hit : F32 → F32 → F32 → Bool) (idxs : List Nat) :
    ∀ acc : Nat × Nat, acc.2 ≤ (idxs.foldl (loop_body hit) acc).2 ∧
      (idxs.foldl (loop_body hit) acc).2 ≤ acc.2 + idxs.length := by
  induction idxs with
  | nil => intro acc; simp
  | cons i rest ih =>
    intro acc
    simp only [List.foldl_cons, List.length_cons]
    obtain ⟨h1, h2⟩ := ih (loop_body hit acc i)
    have h3 : acc.2 ≤ (loop_body hit acc i).2 ∧ (loop_body hit acc i).2 ≤ acc.2 + 1 := by
      unfold loop_body
      simp only
      split_ifs <;> omega
    omega

/-- With a membership test that accepts every point, each iteration counts. -/
theorem foldl_loop_body_true (idxs : List Nat) :
    ∀ acc : Nat × Nat,
      (idxs.foldl (loop_body (fun _ _ _ => true)) acc).2 = acc.2 + idxs.length := by
  induction idxs with
  | nil => intro acc; simp
  | cons i rest ih =>
    intro acc
    simp only [List.foldl_cons, List.length_cons]
    rw [ih]
    simp [loop_body]
    omega

theorem local_hit_count_true (seed : Nat) (idxs : List Nat) :
    local_hit_count (fun _ _ _ => true) seed idxs = idxs.length := by
  unfold local_hit_count
  rw [foldl_loop_body_true]
  simp

theorem local_hit_count_le (hit : F32 → F32 → F32 → Bool) (seed : Nat) (idxs : List Nat) :
    local_hit_count hit seed idxs ≤ idxs.length := by
  unfold local_hit_count
  have := (foldl_loop_body_count hit idxs (seed, 0)).2
  simpa using this

/-- Splitting a list by the value of `f` below `T` and at `T`. -/
theorem filter_length_succ (f : Nat → Nat) (T : Nat) (l : List Nat) :
    (l.filter (fun i => decide (f i < T))).length + (l.filter (fun i => decide (f i = T))).length
      = (l.filter (fun i => decide (f i < T + 1))).length := by
  induction l with
  | nil => simp
  | cons a rest ih =>
    simp only [List.filter_cons]
    rcases lt_trichotomy (f a) T with h | h | h
    · have h1 : f a ≠ T := by omega
      have h2 : f a < T + 1 := by omega
      simp [h, h1, h2]
      omega
    · have h1 : ¬ f a < T := by omega
      have h2 : f a < T + 1 := by omega
      simp [h, h1, h2]
      omega
    · have h1 : f a ≠ T := by omega
      have h2 : ¬ f a < T + 1 := by omega
      have h3 : ¬ f a < T := by omega
      simp [h1, h2, h3]
      omega

/-- The sizes of the classes `f = k`, `k < T`, add up to the size of the class
`f < T`. -/
theorem sum_filter_length (f : Nat → Nat) (l : List Nat) (T : Nat) :
    ((List.range T).map (fun k => (l.filter (fun i => decide (f i = k))).length)).sum
      = (l.filter (fun i => decide (f i < T))).length := by
  induction T with
  | zero => simp
  | succ T ih =>
    rw [List.range_succ, List.map_append, List.sum_append, ih]
    simp only [List.map_cons, List.map_nil, List.sum_cons, List.sum_nil, add_zero]
    exact filter_length_succ f T l

theorem schedule_owner_lt (T i : Nat) (hT : 1 ≤ T) : schedule_owner T i < T :=
  Nat.mod_lt _ hT

/-- The iterations of all workers are, together, all `N` iterations. -/
theorem sum_worker_indices_length (T N : Nat) (hT : 1 ≤ T) :
    ((List.range T).map (fun k => (worker_indices T N k).length)).sum = N := by
  unfold worker_indices
  rw [sum_filter_length (schedule_owner T) (List.range N) T]
  have : (List.range N).filter (fun i => decide (schedule_owner T i < T)) = List.range N := by
    apply List.filter_eq_self.mpr
    intro a _
    simpa using schedule_owner_lt T a hT
  rw [this, List.length_range]

theorem mem_worker_indices (T N k i : Nat) :
    i ∈ worker_indices T N k ↔ i < N ∧ schedule_owner T i = k := by
  simp [worker_indices]

/-- C4: with a membership test that accepts every point, the hit total of
`calculate_volume` equals the sample count `N` in the parallel branch (any team
of `T >= 1` workers) and in the sequential branch; under the static schedule
every iteration of `[0, N)` belongs to exactly one worker, and the local counts
of the workers are the sizes of their iteration sets, which sum to `N`. -/
theorem hit_total_always_true (clock : Nat → Int) (T N : Nat) (hT : 1 ≤ T) :
    hit_total (fun _ _ _ => true) clock T (N : Int) true = N ∧
    hit_total (fun _ _ _ => true) clock T (N : Int) false = N ∧
    (∀ i, i < N → ∃! k, k < T ∧ i ∈ worker_indices T N k) ∧
    (∀ k, local_hit_count (fun _ _ _ => true) (thread_seed (clock k) (k : Int))
        (worker_indices T N k) = (worker_indices T N k).length) ∧
    ((List.range T).map (fun k => (worker_indices T N k).length)).sum = N := by
  refine ⟨?_, ?_, ?_, fun k => local_hit_count_true _ _, sum_worker_indices_length T N hT⟩
  · unfold hit_total
    simp only [if_true, Int.toNat_ofNat, local_hit_count_true]
    exact sum_worker_indices_length T N hT
  · unfold hit_total
    simp [local_hit_count_true]
  · intro i hi
    refine ⟨schedule_owner T i, ⟨schedule_owner_lt T i hT, ?_⟩, ?_⟩
    · exact (mem_worker_indices T N _ i).mpr ⟨hi, rfl⟩
    · rintro k ⟨_, hk⟩
      exact ((mem_worker_indices T N k i).mp hk).2.symm

/-- The statement of C4 for `N = 250001` samples and `T = 8` workers. -/
theorem hit_total_always_true_witness :
    (1 ≤ 8) ∧
    hit_total (fun _ _ _ => true) (fun _ => 1700000000) 8 ((250001 : Nat) : Int) true = 250001 ∧
    hit_total (fun _ _ _ => true) (fun _ => 1700000000) 8 ((250001 : Nat) : Int) false
      = 250001 :=
  ⟨by decide, (hit_total_always_true (fun _ => 1700000000) 8 250001 (by decide)).1,
    (hit_total_always_true (fun _ => 1700000000) 8 250001 (by decide)).2.1⟩

/-! ### Bounds through conversions and products -/

theorem overflow_pos : (0 : Int) < (OVERFLOW : Int) := by
  unfold OVERFLOW
  positivity

theorem key_fin (n : Int) : key (F32.fin n) = n := rfl

theorem round_zero (den : Nat) : F32.round 0 den = F32.fin 0 := by
  have h : mag 0 den = 0 := by
    unfold mag round_mag
    simp [rne]
  unfold F32.round
  simp only [Int.natAbs_zero, h]
  have : ¬ OVERFLOW ≤ 0 := by
    have := overflow_pos
    omega
  simp [this]

/-- Rounding of a value between `0` and a value that rounds to the finite `c`
is finite and lies between `0` and `c`. -/
theorem round_between (num : Int) (den : Nat) (n2 : Int) (d2 : Nat) (c : Int)
    (hd : 0 < den) (hd2 : 0 < d2) (h0 : (0 : ℚ) ≤ (num : ℚ) / den)
    (h1 : (num : ℚ) / den ≤ (n2 : ℚ) / d2) (hc : F32.round n2 d2 = F32.fin c)
    (hcO : c < (OVERFLOW : Int)) :
    ∃ m : Int, F32.round num den = F32.fin m ∧ 0 ≤ m ∧ m ≤ c := by
  have l := key_round_mono 0 1 num den (by norm_num) hd (by simpa using h0)
  have u := key_round_mono num den n2 d2 hd hd2 h1
  rw [round_zero] at l
  rw [hc] at u
  rw [key_fin] at l u
  have := overflow_pos
  refine ⟨key (F32.round num den), ?_, l, u⟩
  exact eq_fin_of_key _ (round_ne_nan _ _) (by omega) (by omega)

theorem mul_between (a a2 b c : Int) (h0 : 0 ≤ a) (h1 : a ≤ a2) (hb : 0 ≤ b)
    (hc : F32.mul (F32.fin a2) (F32.fin b) = F32.fin c) (hcO : c < (OVERFLOW : Int)) :
    ∃ m : Int, F32.mul (F32.fin a) (F32.fin b) = F32.fin m ∧ 0 ≤ m ∧ m ≤ c := by
  simp only [F32.mul] at hc ⊢
  have hU : 0 < UNIT := by unfold UNIT; positivity
  have hU' : (0 : ℚ) < (UNIT : ℚ) := by exact_mod_cast hU
  have a0 : (0 : ℚ) ≤ a := by exact_mod_cast h0
  have a1 : (a : ℚ) ≤ a2 := by exact_mod_cast h1
  have b0 : (0 : ℚ) ≤ b := by exact_mod_cast hb
  apply round_between _ _ _ _ c hU hU _ _ hc hcO
  · push_cast; positivity
  · push_cast
    apply div_le_div_of_nonneg_right _ (le_of_lt hU')
    exact mul_le_mul_of_nonneg_right a1 b0

/-- The hit total never exceeds the number of samples. -/
theorem hit_total_le (hit : F32 → F32 → F32 → Bool) (clock : Nat → Int) (T : Nat) (N : Int)
    (use_omp : Bool) (hT : 1 ≤ T) : hit_total hit clock T N use_omp ≤ N.toNat := by
  unfold hit_total
  split_ifs
  · calc _ ≤ ((List.range T).map (fun k => (worker_indices T N.toNat k).length)).sum := by
          apply List.sum_le_sum
          intro k _
          exact local_hit_count_le _ _ _
      _ = N.toNat := sum_worker_indices_length T N.toNat hT
  · have := local_hit_count_le hit (thread_seed (clock 0) 0) (List.range N.toNat)
    simpa using this

theorem ofInt_between (h N : Int) (h0 : 0 ≤ h) (h1 : h ≤ N) (hN : N < 2147483648) :
    ∃ m : Int, F32.ofInt h = F32.fin m ∧ 0 ≤ m ∧ m ≤ key (F32.ofInt N) ∧
      ∃ n : Int, F32.ofInt N = F32.fin n ∧ n ≤ 2147483648 * 2 ^ 149 := by
  have hU : (0 : ℚ) < ((UNIT : Int) : ℚ) := by unfold UNIT; positivity
  have e : F32.round (2147483648 * (UNIT : Int)) 1 = F32.fin (2147483648 * 2 ^ 149) := by decide!
  have hO : (2147483648 * 2 ^ 149 : Int) < (OVERFLOW : Int) := by
    unfold OVERFLOW
    norm_num
  obtain ⟨n, hn, n0, n1⟩ := round_between (N * (UNIT : Int)) 1 (2147483648 * (UNIT : Int)) 1 _
    (by norm_num) (by norm_num) (by
      have : (0 : ℚ) ≤ N := by exact_mod_cast (le_trans h0 h1)
      push_cast; simp
      exact mul_nonneg this (le_of_lt hU)) (by
      have : (N : ℚ) ≤ 2147483648 := by exact_mod_cast (le_of_lt hN)
      push_cast; simp
      exact mul_le_mul_of_nonneg_right this (le_of_lt hU)) e hO
  obtain ⟨m, hm, m0, m1⟩ := round_between (h * (UNIT : Int)) 1 (N * (UNIT : Int)) 1 n
    (by norm_num) (by norm_num) (by
      have : (0 : ℚ) ≤ h := by exact_mod_cast h0
      push_cast; simp
      exact mul_nonneg this (le_of_lt hU)) (by
      have : (h : ℚ) ≤ N := by exact_mod_cast h1
      push_cast; simp
      exact mul_le_mul_of_nonneg_right this (le_of_lt hU)) hn (lt_of_le_of_lt n1 hO)
  refine ⟨m, hm, m0, ?_, n, hn, n1⟩
  unfold F32.ofInt
  rw [hn]
  exact m1

theorem ofInt_pos (N : Int) (hN : 0 < N) : (UNIT : Int) ≤ key (F32.ofInt N) := by
  have e : F32.round (1 * (UNIT : Int)) 1 = F32.fin (UNIT : Int) := by decide!
  have hU : (0 : ℚ) < ((UNIT : Int) : ℚ) := by unfold UNIT; positivity
  have := key_round_mono (1 * (UNIT : Int)) 1 (N * (UNIT : Int)) 1 (by norm_num) (by norm_num) (by
    have : (1 : ℚ) ≤ N := by exact_mod_cast hN
    push_cast; simp
    exact le_mul_of_one_le_left (le_of_lt hU) this)
  rw [e] at this
  exact this

/-! ### Draws of `next_float` -/

/-- C1 (the code at the failing input): seeded with `1714632507` (a non-zero
32-bit seed), the first `next()` updates the state to `4294967189 = 2^32 - 107`,
which converts to the `float` `2^32`; with `min = x_min = 0` and
`span = xd = 2` the draw `next_float(min, span)` returns `2.0 = min + span`,
which is not strictly less than `min + span`. -/
theorem next_float_reaches_upper_end :
    (1714632507 ≠ 0 ∧ 1714632507 < UINT_MOD) ∧
    Xorshift.next 1714632507 = (F32.fin (4294967296 * 2 ^ 149), 4294967189) ∧
    x_min = F32.fin 0 ∧ xd = F32.fin (2 * 2 ^ 149) ∧
    (Xorshift.next_float x_min xd 1714632507).1 = F32.add x_min xd ∧
    F32.lt (Xorshift.next_float x_min xd 1714632507).1 (F32.add x_min xd) = false := by
  decide!

/-! ### The volume estimate -/

/-- C5 (as stated, refuted): for `hit_count = 500000` and `num_points = 1000000`
the estimate is neither the number `1.69` nor the binary32 value nearest to
`1.69`. -/
theorem volume_of_half_ne :
    (volume_of 500000 1000000).toRat ≠ 169 / 100 ∧
    volume_of 500000 1000000 ≠ F32.lit 169 100 := by
  have h : volume_of 500000 1000000 = F32.fin (14176746 * 2 ^ 126) := by decide!
  constructor
  · rw [h]
    unfold F32.toRat
    norm_num
  · decide!

/-- C5 (amended): the estimate is the binary32 value of
`hit_count / num_points * xd * yd * zd`, evaluated from the left with one rounding
per operation, with `xd = 2` and `yd = zd = 2 * 0.65f = 10905190 / 2^23`; for
`hit_count = 500000` and `num_points = 1000000` it is `14176746 / 2^23`
(`1.6899998188...`), which lies within `2^(-22)` of `1.69`. -/
theorem volume_of_half (hit : F32 → F32 → F32 → Bool) (clock : Nat → Int) (num_threads : Nat)
    (num_points : Int) (use_omp : Bool) :
    calculate_volume hit clock num_threads num_points use_omp
      = F32.mul (F32.mul (F32.mul
          (F32.div (F32.ofInt (hit_total hit clock num_threads num_points use_omp))
            (F32.ofInt num_points))
          (F32.sub (get_axis_range 1) (get_axis_range 0)))
          (F32.sub (get_axis_range 3) (get_axis_range 2)))
          (F32.sub (get_axis_range 5) (get_axis_range 4)) ∧
    (xd.toRat = 2 ∧ yd.toRat = 10905190 / 2 ^ 23 ∧ zd.toRat = 10905190 / 2 ^ 23) ∧
    (volume_of 500000 1000000).toRat = 14176746 / 2 ^ 23 ∧
    |(volume_of 500000 1000000).toRat - 169 / 100| < 1 / 2 ^ 22 := by
  have hx : xd = F32.fin (2 * 2 ^ 149) := by decide!
  have hy : yd = F32.fin (10905190 * 2 ^ 126) := by decide!
  have hz : zd = F32.fin (10905190 * 2 ^ 126) := by decide!
  have h : volume_of 500000 1000000 = F32.fin (14176746 * 2 ^ 126) := by decide!
  refine ⟨rfl, ⟨?_, ?_, ?_⟩, ?_, ?_⟩
  · rw [hx]; unfold F32.toRat; norm_num
  · rw [hy]; unfold F32.toRat; norm_num
  · rw [hz]; unfold F32.toRat; norm_num
  · rw [h]; unfold F32.toRat; norm_num
  · rw [h]; unfold F32.toRat; rw [abs_lt]; norm_num

/-- C10: for every sample count `0 < N` (an `int`) and every team of `T >= 1`
workers, in both branches of `calculate_volume` and for every membership test,
seed and clock: the hit total is at most `N`, the divisor
`static_cast<float>(num_points)` is a positive finite value (no division by
zero), and the estimate is a finite binary32 value `v` with
`0 <= v <= xd * yd * zd <= 3.38`. -/
theorem volume_bounds (hit : F32 → F32 → F32 → Bool) (clock : Nat → Int) (T : Nat) (N : Int)
    (use_omp : Bool) (hT : 1 ≤ T) (hN : 0 < N) (hN2 : N < 2147483648) :
    ((hit_total hit clock T N use_omp : Nat) : Int) ≤ N ∧
    (∃ n : Int, F32.ofInt N = F32.fin n ∧ 0 < n) ∧
    ∃ v : Int, calculate_volume hit clock T N use_omp = F32.fin v ∧ 0 ≤ v ∧
      F32.le (F32.fin v) (F32.mul (F32.mul xd yd) zd) = true ∧
      (F32.fin v).toRat ≤ 338 / 100 := by
  have hH : ((hit_total hit clock T N use_omp : Nat) : Int) ≤ N := by
    have := hit_total_le hit clock T N use_omp hT
    omega
  obtain ⟨m, hm, m0, m1, n, hn, n1⟩ :=
    ofInt_between (hit_total hit clock T N use_omp : Nat) N (by omega) hH hN2
  have npos := ofInt_pos N hN
  rw [hn, key_fin] at npos m1
  have hU : (0 : Int) < (UNIT : Int) := by unfold UNIT; positivity
  have hUq : (0 : ℚ) < ((UNIT : Int) : ℚ) := by exact_mod_cast hU
  have n0 : 0 < n := lt_of_lt_of_le hU npos
  refine ⟨hH, ⟨n, hn, n0⟩, ?_⟩
  -- the ratio
  have e1 : F32.round (1 * (UNIT : Int)) 1 = F32.fin (2 ^ 149) := by decide!
  have hO1 : (2 ^ 149 : Int) < (OVERFLOW : Int) := by unfold OVERFLOW; norm_num
  have hdiv : ∃ r : Int, F32.div (F32.fin m) (F32.fin n) = F32.fin r ∧ 0 ≤ r ∧ r ≤ 2 ^ 149 := by
    simp only [F32.div]
    rw [if_neg (by omega)]
    have hs : n.sign = 1 := Int.sign_eq_one_of_pos n0
    have hnq : (0 : ℚ) < (n : ℚ) := by exact_mod_cast n0
    have hmq : (0 : ℚ) ≤ (m : ℚ) := by exact_mod_cast m0
    have hmn : (m : ℚ) ≤ (n : ℚ) := by exact_mod_cast m1
    have hna : ((n.natAbs : Nat) : ℚ) = (n : ℚ) := by
      rw [Nat.cast_natAbs, abs_of_pos n0]
    apply round_between _ _ (1 * (UNIT : Int)) 1 _ (by omega) (by norm_num) _ _ e1 hO1
    · rw [hs, hna]
      push_cast
      rw [mul_one]
      exact div_nonneg (mul_nonneg hmq (le_of_lt hUq)) (le_of_lt hnq)
    · rw [hs, hna]
      push_cast
      simp only [mul_one, one_mul, div_one]
      rw [div_le_iff₀ hnq]
      exact mul_le_mul_of_nonneg_right hmn (le_of_lt hUq) |>.trans (le_of_eq (mul_comm _ _))
  obtain ⟨r, hr, r0, r1⟩ := hdiv
  have hx : xd = F32.fin (2 * 2 ^ 149) := by decide!
  have hy : yd = F32.fin (10905190 * 2 ^ 126) := by decide!
  have hz : zd = F32.fin (10905190 * 2 ^ 126) := by decide!
  have c1 : F32.mul (F32.fin (2 ^ 149)) (F32.fin (2 * 2 ^ 149)) = F32.fin (2 * 2 ^ 149) := by
    decide!
  have c2 : F32.mul (F32.fin (2 * 2 ^ 149)) (F32.fin (10905190 * 2 ^ 126))
      = F32.fin (10905190 * 2 ^ 127) := by decide!
  have c3 : F32.mul (F32.fin (10905190 * 2 ^ 127)) (F32.fin (10905190 * 2 ^ 126))
      = F32.fin (14176746 * 2 ^ 127) := by decide!
  obtain ⟨k1, hk1, k10, k11⟩ := mul_between r (2 ^ 149) (2 * 2 ^ 149) _ r0 r1 (by norm_num) c1
    (by unfold OVERFLOW; norm_num)
  obtain ⟨k2, hk2, k20, k21⟩ := mul_between k1 (2 * 2 ^ 149) (10905190 * 2 ^ 126) _ k10 k11
    (by norm_num) c2 (by unfold OVERFLOW; norm_num)
  obtain ⟨k3, hk3, k30, k31⟩ := mul_between k2 (10905190 * 2 ^ 127) (10905190 * 2 ^ 126) _ k20 k21
    (by norm_num) c3 (by unfold OVERFLOW; norm_num)
  refine ⟨k3, ?_, k30, ?_, ?_⟩
  · unfold calculate_volume volume_of
    rw [hm, hn, hr, hx, hk1, hy, hk2, hz, hk3]
  · rw [hx, hy, hz, c2, c3]
    simp only [F32.le, decide_eq_true_eq]
    exact k31
  · unfold F32.toRat
    have : (k3 : ℚ) ≤ ((14176746 * 2 ^ 127 : Int) : ℚ) := by exact_mod_cast k31
    rw [div_le_iff₀ (by positivity)]
    refine le_trans this ?_
    norm_num

/-- The statement of C10 for `N = 3` samples, `T = 2` workers and `hit_test`. -/
theorem volume_bounds_witness :
    ((hit_total hit_test (fun _ => 1714632507) 2 3 true : Nat) : Int) ≤ 3 ∧
    (∃ n : Int, F32.ofInt 3 = F32.fin n ∧ 0 < n) ∧
    ∃ v : Int, calculate_volume hit_test (fun _ => 1714632507) 2 3 true = F32.fin v ∧ 0 ≤ v ∧
      F32.le (F32.fin v) (F32.mul (F32.mul xd yd) zd) = true ∧
      (F32.fin v).toRat ≤ 338 / 100 :=
  volume_bounds hit_test (fun _ => 1714632507) 2 3 true (by decide) (by decide) (by decide)

/-! ### Absolute rounding errors -/

theorem toRat_fin (n : Int) : (F32.fin n).toRat = (n : ℚ) / 2 ^ 149 := rfl

theorem unit_cast : ((UNIT : Nat) : ℚ) = 2 ^ 149 := by
  unfold UNIT
  norm_cast

theorem unit_pos : 0 < UNIT := by
  unfold UNIT
  positivity

/-- Rounding of an exact value of magnitude below `64` is finite, with error at
most `2^(-19)`. -/
theorem round_err64 (num : Int) (den : Nat) (hd : 0 < den) (v : ℚ)
    (hv : (num : ℚ) / den = v * 2 ^ 149) (h : |v| < 64) :
    ∃ m : Int, F32.round num den = F32.fin m ∧ |(F32.fin m).toRat - v| ≤ 1 / 2 ^ 19 := by
  have hu : (0 : ℚ) < 2 ^ 149 := by positivity
  have e1 : (2 : ℚ) ^ (24 + 131) = 64 * 2 ^ 149 := by norm_num
  have e2 : (2 : ℚ) ^ 131 / 2 = 2 ^ 149 * (1 / 2 ^ 19) := by norm_num
  obtain ⟨m, hm, herr⟩ := round_fin_err num den hd 131 (by norm_num) (by
    rw [hv, e1, abs_mul, abs_of_pos hu]
    exact mul_lt_mul_of_pos_right h hu)
  refine ⟨m, hm, ?_⟩
  rw [hv, e2] at herr
  rw [toRat_fin]
  have : (m : ℚ) / 2 ^ 149 - v = ((m : ℚ) - v * 2 ^ 149) / 2 ^ 149 := by
    field_simp
    ring
  rw [this, abs_div, abs_of_pos hu, div_le_iff₀ hu]
  linarith

theorem mul_err64 (a b : Int) (h : |(F32.fin a).toRat * (F32.fin b).toRat| < 64) :
    ∃ m : Int, F32.mul (F32.fin a) (F32.fin b) = F32.fin m ∧
      |(F32.fin m).toRat - (F32.fin a).toRat * (F32.fin b).toRat| ≤ 1 / 2 ^ 19 := by
  simp only [F32.mul]
  apply round_err64 _ _ unit_pos _ _ h
  rw [toRat_fin, toRat_fin, unit_cast]
  push_cast
  field_simp
  ring

theorem add_err64 (a b : Int) (h : |(F32.fin a).toRat + (F32.fin b).toRat| < 64) :
    ∃ m : Int, F32.add (F32.fin a) (F32.fin b) = F32.fin m ∧
      |(F32.fin m).toRat - ((F32.fin a).toRat + (F32.fin b).toRat)| ≤ 1 / 2 ^ 19 := by
  simp only [F32.add]
  apply round_err64 _ _ (by norm_num) _ _ h
  rw [toRat_fin, toRat_fin]
  push_cast
  field_simp

theorem sub_err64 (a b : Int) (h : |(F32.fin a).toRat - (F32.fin b).toRat| < 64) :
    ∃ m : Int, F32.sub (F32.fin a) (F32.fin b) = F32.fin m ∧
      |(F32.fin m).toRat - ((F32.fin a).toRat - (F32.fin b).toRat)| ≤ 1 / 2 ^ 19 := by
  have e : (F32.fin (-b)).toRat = -(F32.fin b).toRat := by
    rw [toRat_fin, toRat_fin]; push_cast; ring
  have := add_err64 a (-b) (by rw [e, ← sub_eq_add_neg]; exact h)
  rw [e, ← sub_eq_add_neg] at this
  exact this

theorem abs_mul_le (a b A B : ℚ) (ha : |a| ≤ A) (hb : |b| ≤ B) : |a * b| ≤ A * B := by
  rw [abs_mul]
  exact mul_le_mul ha hb (abs_nonneg _) (le_trans (abs_nonneg _) ha)

theorem abs_bound (m v e V : ℚ) (h : |m - v| ≤ e) (hv : |v| ≤ V) : |m| ≤ V + e := by
  have := abs_sub_abs_le_abs_sub m v
  linarith

/-- The binary32 evaluation of the piriform polynomial at a point with
`|x| <= 2`, `|y| <= 1`, `|z| <= 1` is finite and differs from the exact value
by less than `2^(-14)`. -/
theorem piriform_eval_err (X Y Z : Int)
    (hx : |(F32.fin X).toRat| ≤ 2) (hy : |(F32.fin Y).toRat| ≤ 1) (hz : |(F32.fin Z).toRat| ≤ 1) :
    ∃ m : Int,
      F32.add
        (F32.sub
          (F32.mul (F32.mul (F32.lit 2 1) (F32.lit 2 1))
            (F32.add (F32.mul (F32.fin Y) (F32.fin Y)) (F32.mul (F32.fin Z) (F32.fin Z))))
          (F32.mul (F32.lit 2 1) (F32.mul (F32.mul (F32.fin X) (F32.fin X)) (F32.fin X))))
        (F32.mul (F32.mul (F32.mul (F32.fin X) (F32.fin X)) (F32.fin X)) (F32.fin X))
        = F32.fin m ∧
      |(F32.fin m).toRat -
        (4 * ((F32.fin Y).toRat ^ 2 + (F32.fin Z).toRat ^ 2) - 2 * (F32.fin X).toRat ^ 3
          + (F32.fin X).toRat ^ 4)| < 1 / 2 ^ 14 := by
  have h2 : F32.lit 2 1 = F32.fin (2 * 2 ^ 149) := by decide!
  have h4 : F32.mul (F32.fin (2 * 2 ^ 149)) (F32.fin (2 * 2 ^ 149)) = F32.fin (4 * 2 ^ 149) := by
    decide!
  have v2 : (F32.fin (2 * 2 ^ 149)).toRat = 2 := by rw [toRat_fin]; norm_num
  have v4 : (F32.fin (4 * 2 ^ 149)).toRat = 4 := by rw [toRat_fin]; norm_num
  rw [h2, h4]
  have hE : (0 : ℚ) < 1 / 2 ^ 19 := by positivity
  have hE2 : (1 : ℚ) / 2 ^ 19 < 1 / 1000 := by norm_num
  -- y * y, z * z, their sum, and the product with a * a = 4
  obtain ⟨m1, r1, e1⟩ := mul_err64 Y Y
    (lt_of_le_of_lt (abs_mul_le _ _ 1 1 hy hy) (by norm_num))
  have b1 := abs_bound _ _ _ _ e1 (abs_mul_le _ _ 1 1 hy hy)
  obtain ⟨m2, r2, e2⟩ := mul_err64 Z Z
    (lt_of_le_of_lt (abs_mul_le _ _ 1 1 hz hz) (by norm_num))
  have b2 := abs_bound _ _ _ _ e2 (abs_mul_le _ _ 1 1 hz hz)
  have s3 : |(F32.fin m1).toRat + (F32.fin m2).toRat| ≤ 1 * 1 + 1 / 2 ^ 19 + (1 * 1 + 1 / 2 ^ 19) :=
    le_trans (abs_add _ _) (add_le_add b1 b2)
  obtain ⟨m3, r3, e3⟩ := add_err64 m1 m2 (lt_of_le_of_lt s3 (by norm_num))
  have b3 := abs_bound _ _ _ _ e3 s3
  have s4 := abs_mul_le (F32.fin (4 * 2 ^ 149)).toRat _ 4 _ (by rw [v4]; norm_num) b3
  obtain ⟨m4, r4, e4⟩ := mul_err64 (4 * 2 ^ 149) m3 (lt_of_le_of_lt s4 (by norm_num))
  have b4 := abs_bound _ _ _ _ e4 s4
  -- x * x, x * x * x, a * (x * x * x), x * x * x * x
  obtain ⟨m5, r5, e5⟩ := mul_err64 X X
    (lt_of_le_of_lt (abs_mul_le _ _ 2 2 hx hx) (by norm_num))
  have b5 := abs_bound _ _ _ _ e5 (abs_mul_le _ _ 2 2 hx hx)
  have s6 := abs_mul_le _ _ _ 2 b5 hx
  obtain ⟨m6, r6, e6⟩ := mul_err64 m5 X (lt_of_le_of_lt s6 (by norm_num))
  have b6 := abs_bound _ _ _ _ e6 s6
  have s7 := abs_mul_le (F32.fin (2 * 2 ^ 149)).toRat _ 2 _ (by rw [v2]; norm_num) b6
  obtain ⟨m7, r7, e7⟩ := mul_err64 (2 * 2 ^ 149) m6 (lt_of_le_of_lt s7 (by norm_num))
  have b7 := abs_bound _ _ _ _ e7 s7
  have s9 := abs_mul_le _ _ _ 2 b6 hx
  obtain ⟨m9, r9, e9⟩ := mul_err64 m6 X (lt_of_le_of_lt s9 (by norm_num))
  have b9 := abs_bound _ _ _ _ e9 s9
  -- the difference and the final sum
  have s8 := le_trans (abs_sub _ _) (add_le_add b4 b7)
  obtain ⟨m8, r8, e8⟩ := sub_err64 m4 m7 (lt_of_le_of_lt s8 (by norm_num))
  have b8 := abs_bound _ _ _ _ e8 s8
  have s10 := le_trans (abs_add _ _) (add_le_add b8 b9)
  obtain ⟨m10, r10, e10⟩ := add_err64 m8 m9 (lt_of_le_of_lt s10 (by norm_num))
  refine ⟨m10, by rw [r1, r2, r3, r4, r5, r6, r7, r9, r8, r10], ?_⟩
  rw [v4] at e4
  rw [v2] at e7
  generalize (F32.fin X).toRat = x at *
  generalize (F32.fin Y).toRat = y at *
  generalize (F32.fin Z).toRat = z at *
  generalize (F32.fin m1).toRat = q1 at *
  generalize (F32.fin m2).toRat = q2 at *
  generalize (F32.fin m3).toRat = q3 at *
  generalize (F32.fin m4).toRat = q4 at *
  generalize (F32.fin m5).toRat = q5 at *
  generalize (F32.fin m6).toRat = q6 at *
  generalize (F32.fin m7).toRat = q7 at *
  generalize (F32.fin m8).toRat = q8 at *
  generalize (F32.fin m9).toRat = q9 at *
  generalize (F32.fin m10).toRat = q10 at *
  have t1 : |(q5 - x * x) * x| ≤ 1 / 2 ^ 19 * 2 := abs_mul_le _ _ _ _ e5 hx
  have t2 : |(q5 - x * x) * x * x| ≤ 1 / 2 ^ 19 * 2 * 2 := abs_mul_le _ _ _ _ t1 hx
  have t3 : |(q6 - q5 * x) * x| ≤ 1 / 2 ^ 19 * 2 := abs_mul_le _ _ _ _ e6 hx
  have key : q10 - (4 * (y ^ 2 + z ^ 2) - 2 * x ^ 3 + x ^ 4)
      = (q10 - (q8 + q9)) + (q8 - (q4 - q7)) + (q4 - 4 * q3) + 4 * (q3 - (q1 + q2))
        + 4 * (q1 - y * y) + 4 * (q2 - z * z) - (q7 - 2 * q6) - 2 * (q6 - q5 * x)
        - 2 * ((q5 - x * x) * x) + (q9 - q6 * x) + (q6 - q5 * x) * x
        + (q5 - x * x) * x * x := by ring
  rw [key, abs_lt]
  rw [abs_le] at e1 e2 e3 e4 e5 e6 e7 e8 e9 e10 t1 t2 t3
  constructor <;> linarith [e1.1, e1.2, e2.1, e2.2, e3.1, e3.2, e4.1, e4.2, e5.1, e5.2, e6.1,
    e6.2, e7.1, e7.2, e8.1, e8.2, e9.1, e9.2, e10.1, e10.2, t1.1, t1.2, t2.1, t2.2, t3.1, t3.2]

/-! ### Values with 24 significant bits -/

theorem mag_rep (p q : Nat) (hq : 0 < q) : ∃ k m, mag p q = m * 2 ^ k ∧ m ≤ 2 ^ 24 := by
  obtain ⟨k, e, u, _⟩ := mag_spec p q hq
  refine ⟨k, rne p (2 ^ k * q), by rw [e, mul_comm], ?_⟩
  apply rne_le_of_lt _ _ _ (by positivity)
  have : 2 ^ (24 + k) * q = 2 ^ 24 * (2 ^ k * q) := by rw [pow_add]; ring
  omega

theorem mag_of_rep (n k m : Nat) (h : n = m * 2 ^ k) (hm : m ≤ 2 ^ 24) : mag n 1 = n := by
  obtain ⟨k2, e, u, l⟩ := mag_spec n 1 (by norm_num)
  have hdvd : 2 ^ k2 ∣ n := by
    by_cases hk : k2 ≤ k
    · rw [h]
      exact Dvd.dvd.mul_left (pow_dvd_pow 2 hk) m
    · push_neg at hk
      rcases l with l | l
      · omega
      · rw [mul_one] at l
        have h1 : m * 2 ^ k ≤ 2 ^ 24 * 2 ^ k := Nat.mul_le_mul_right _ hm
        have h2 : 2 ^ (23 + k2) ≤ 2 ^ (24 + k) := by
          rw [pow_add 2 24 k]; omega
        have h3 : 23 + k2 ≤ 24 + k := (Nat.pow_le_pow_iff_right (by norm_num)).mp h2
        have h4 : k2 = k + 1 := by omega
        subst h4
        have h5 : 2 ^ (23 + (k + 1)) = 2 ^ 24 * 2 ^ k := by
          rw [← pow_add]; congr 1; omega
        have h6 : n = 2 ^ 24 * 2 ^ k := by omega
        rw [h6, pow_succ]
        exact ⟨2 ^ 23, by ring⟩
  obtain ⟨t, ht⟩ := hdvd
  rw [e]
  have : rne n (2 ^ k2 * 1) = t := by
    rw [mul_one, ht, mul_comm]
    exact rne_exact t (2 ^ k2) (by positivity)
  rw [this, ht]

/-- The result of a rounding is a binary32 value. -/
theorem round_valid (num : Int) (den : Nat) (hd : 0 < den) : F32.Valid (F32.round num den) := by
  unfold F32.round
  simp only
  by_cases h : OVERFLOW ≤ mag num.natAbs den
  · rw [if_pos h]
    split_ifs <;> trivial
  · rw [if_neg h]
    obtain ⟨k, m, e, hm⟩ := mag_rep num.natAbs den hd
    have fix := mag_of_rep _ k m e hm
    unfold F32.Valid
    split_ifs
    · simp only [Int.natAbs_neg, Int.natAbs_ofNat]
      exact ⟨by omega, fix⟩
    · simp only [Int.natAbs_ofNat]
      exact ⟨by omega, fix⟩

/-- A binary32 value of magnitude at least `2^(23+k)` units is a multiple of
`2^k` units. -/
theorem valid_dvd (n : Int) (hv : F32.Valid (F32.fin n)) (k : Nat)
    (h : 2 ^ (23 + k) ≤ n.natAbs) : 2 ^ k ∣ n.natAbs := by
  obtain ⟨_, fix⟩ := hv
  obtain ⟨k2, e, u, _⟩ := mag_spec n.natAbs 1 (by norm_num)
  rw [fix] at e
  rw [mul_one] at u
  have h1 : 2 ^ (23 + k) < 2 ^ (24 + k2) := lt_of_le_of_lt h u
  have h2 : 23 + k < 24 + k2 := (Nat.pow_lt_pow_iff_right (by norm_num)).mp h1
  have h3 : k ≤ k2 := by omega
  rw [e]
  exact Dvd.dvd.mul_right (pow_dvd_pow 2 h3) _

/-- Doubling a binary32 value is exact. -/
theorem valid_double (n : Int) (hv : F32.Valid (F32.fin n)) (h : 2 * n.natAbs < OVERFLOW) :
    F32.Valid (F32.fin (2 * n)) := by
  obtain ⟨_, fix⟩ := hv
  obtain ⟨k, m, e, hm⟩ := mag_rep n.natAbs 1 (by norm_num)
  rw [fix] at e
  have e2 : (2 * n).natAbs = m * 2 ^ (k + 1) := by
    rw [Int.natAbs_mul, e, pow_succ]
    simp
    ring
  exact ⟨by rw [Int.natAbs_mul]; simpa using h, mag_of_rep _ (k + 1) m e2 hm⟩

theorem valid_neg (n : Int) (hv : F32.Valid (F32.fin n)) : F32.Valid (F32.fin (-n)) := by
  unfold F32.Valid at *
  simpa using hv

theorem round_neg (num : Int) (den : Nat) :
    F32.round (-num) den = F32.neg (F32.round num den) := by
  by_cases h0 : num = 0
  · subst h0
    rw [neg_zero, round_zero]
    rfl
  · unfold F32.round
    simp only [Int.natAbs_neg]
    by_cases hO : OVERFLOW ≤ mag num.natAbs den
    · simp only [hO, if_true]
      by_cases hn : num < 0
      · have : ¬ (-num < 0) := by omega
        simp [hn, this, F32.neg]
      · have : -num < 0 := by omega
        simp [hn, this, F32.neg]
    · simp only [hO, if_false]
      by_cases hn : num < 0
      · have : ¬ (-num < 0) := by omega
        simp [hn, this, F32.neg]
      · have : -num < 0 := by omega
        simp [hn, this, F32.neg]

/-! ### Lower bounds through the operations -/

theorem lit_zero : F32.lit 0 1 = F32.fin 0 := by
  unfold F32.lit
  rw [zero_mul, round_zero]

theorem NGE_not_le (c : Int) (v : F32) (hc : 0 < c) (h : NGE c v) :
    F32.le v (F32.fin 0) = false := by
  rcases h with rfl | rfl | ⟨n, rfl, hn⟩
  · rfl
  · rfl
  · simp only [F32.le, decide_eq_false_iff_not]
    omega

theorem NGE_mono (c d : Int) (v : F32) (hcd : d ≤ c) (h : NGE c v) : NGE d v := by
  rcases h with rfl | rfl | ⟨n, rfl, hn⟩
  · exact Or.inl rfl
  · exact Or.inr (Or.inl rfl)
  · exact Or.inr (Or.inr ⟨n, rfl, by omega⟩)

theorem add_nan_right (x : F32) : F32.add x F32.nan = F32.nan := by
  cases x <;> rfl

theorem mul_nan_right (x : F32) : F32.mul x F32.nan = F32.nan := by
  cases x <;> rfl

/-- A rounding of a value at least the value that rounds to the finite `c`. -/
theorem round_GE (num : Int) (den : Nat) (n2 : Int) (d2 : Nat) (c : Int)
    (hd : 0 < den) (hd2 : 0 < d2) (h : (n2 : ℚ) / d2 ≤ (num : ℚ) / den)
    (hc : F32.round n2 d2 = F32.fin c) : GE c (F32.round num den) := by
  have hv := round_valid n2 d2 hd2
  rw [hc] at hv
  obtain ⟨hv1, _⟩ := hv
  have m := key_round_mono n2 d2 num den hd2 hd h
  rw [hc, key_fin] at m
  have hnn := round_ne_nan num den
  have hO := overflow_pos
  have hc1 : -(OVERFLOW : Int) < c := by omega
  cases hr : F32.round num den with
  | nan => exact absurd hr hnn
  | pinf => exact Or.inl rfl
  | ninf =>
    rw [hr] at m
    simp only [key] at m
    omega
  | fin n =>
    rw [hr, key_fin] at m
    exact Or.inr ⟨n, rfl, m⟩

theorem add_NGE (a b c : Int) (x y : F32) (hc : F32.add (F32.fin a) (F32.fin b) = F32.fin c)
    (hx : NGE a x) (hy : NGE b y) : NGE c (F32.add x y) := by
  rcases hx with rfl | rfl | ⟨n, rfl, hn⟩
  · left; cases y <;> rfl
  · rcases hy with rfl | rfl | ⟨n2, rfl, _⟩
    · left; rfl
    · right; left; rfl
    · right; left; rfl
  · rcases hy with rfl | rfl | ⟨n2, rfl, hn2⟩
    · left; rfl
    · right; left; rfl
    · right
      simp only [F32.add] at hc ⊢
      apply round_GE _ _ _ _ c (by norm_num) (by norm_num) _ hc
      have : ((a + b : Int) : ℚ) ≤ ((n + n2 : Int) : ℚ) := by exact_mod_cast (by omega)
      simpa using this

theorem mul_NGE (a b c : Int) (x y : F32) (ha : 0 < a) (hb : 0 < b)
    (hc : F32.mul (F32.fin a) (F32.fin b) = F32.fin c)
    (hx : NGE a x) (hy : NGE b y) : NGE c (F32.mul x y) := by
  rcases hx with rfl | rfl | ⟨n, rfl, hn⟩
  · left; cases y <;> rfl
  · rcases hy with rfl | rfl | ⟨n2, rfl, hn2⟩
    · left; rfl
    · right; left; rfl
    · right; left
      have h1 : n2 ≠ 0 := by omega
      have h2 : ¬ n2 < 0 := by omega
      simp [F32.mul, inf_times, h1, h2]
  · rcases hy with rfl | rfl | ⟨n2, rfl, hn2⟩
    · left; rfl
    · right; left
      have h1 : n ≠ 0 := by omega
      have h2 : ¬ n < 0 := by omega
      simp [F32.mul, inf_times, h1, h2]
    · right
      simp only [F32.mul] at hc ⊢
      apply round_GE _ _ _ _ c unit_pos unit_pos _ hc
      have hU : (0 : ℚ) < ((UNIT : Nat) : ℚ) := by exact_mod_cast unit_pos
      have a0 : (0 : ℚ) ≤ (a : ℚ) := by exact_mod_cast (le_of_lt ha)
      have n0 : (0 : ℚ) ≤ (n2 : ℚ) := by exact_mod_cast (by omega : (0 : Int) ≤ n2)
      have h1 : (a : ℚ) ≤ n := by exact_mod_cast hn
      have h2 : (b : ℚ) ≤ n2 := by exact_mod_cast hn2
      push_cast
      apply div_le_div_of_nonneg_right _ (le_of_lt hU)
      exact mul_le_mul h1 h2 (by exact_mod_cast (le_of_lt hb)) (le_trans a0 h1)

theorem mul_self_NGE (x : F32) : NGE 0 (F32.mul x x) := by
  cases x with
  | nan => left; rfl
  | pinf => right; left; rfl
  | ninf => right; left; rfl
  | fin n =>
    right
    simp only [F32.mul]
    apply round_GE _ _ 0 1 0 unit_pos (by norm_num) _ (round_zero 1)
    have hU : (0 : ℚ) < ((UNIT : Nat) : ℚ) := by exact_mod_cast unit_pos
    push_cast
    simp only [zero_div]
    exact div_nonneg (mul_self_nonneg _) (le_of_lt hU)

/-! ### Signs -/

theorem neg_neg_f32 (x : F32) : F32.neg (F32.neg x) = x := by
  cases x <;> simp [F32.neg]

theorem inf_times_neg (s : Bool) (n : Int) :
    inf_times s (-n) = F32.neg (inf_times s n) := by
  unfold inf_times
  rcases lt_trichotomy n 0 with h | h | h
  · have h1 : ¬ (-n = 0) := by omega
    have h2 : ¬ (-n < 0) := by omega
    have h3 : ¬ (n = 0) := by omega
    cases s <;> simp [h, h1, h2, h3, F32.neg]
  · subst h
    simp [F32.neg]
  · have h1 : ¬ (-n = 0) := by omega
    have h2 : -n < 0 := by omega
    have h3 : ¬ (n = 0) := by omega
    have h4 : ¬ (n < 0) := by omega
    cases s <;> simp [h1, h2, h3, h4, F32.neg]

theorem inf_times_flip (n : Int) : inf_times true n = F32.neg (inf_times false n) := by
  unfold inf_times
  by_cases h0 : n = 0
  · simp [h0, F32.neg]
  · by_cases h : n < 0 <;> simp [h0, h, F32.neg]

theorem mul_neg_right (x y : F32) : F32.mul x (F32.neg y) = F32.neg (F32.mul x y) := by
  cases x with
  | nan => cases y <;> rfl
  | fin a =>
    cases y with
    | nan => rfl
    | pinf => exact inf_times_flip a
    | ninf =>
      show inf_times false a = F32.neg (inf_times true a)
      rw [inf_times_flip, neg_neg_f32]
    | fin b =>
      show F32.round (a * -b) UNIT = F32.neg (F32.round (a * b) UNIT)
      rw [mul_neg, round_neg]
  | pinf =>
    cases y with
    | nan => rfl
    | pinf => rfl
    | ninf => rfl
    | fin b => exact inf_times_neg false b
  | ninf =>
    cases y with
    | nan => rfl
    | pinf => rfl
    | ninf => rfl
    | fin b => exact inf_times_neg true b

theorem mul_neg_left (x y : F32) : F32.mul (F32.neg x) y = F32.neg (F32.mul x y) := by
  cases y with
  | nan => cases x <;> rfl
  | fin b =>
    cases x with
    | nan => rfl
    | pinf => exact inf_times_flip b
    | ninf =>
      show inf_times false b = F32.neg (inf_times true b)
      rw [inf_times_flip, neg_neg_f32]
    | fin a =>
      show F32.round (-a * b) UNIT = F32.neg (F32.round (a * b) UNIT)
      rw [neg_mul, round_neg]
  | pinf =>
    cases x with
    | nan => rfl
    | pinf => rfl
    | ninf => rfl
    | fin a => exact inf_times_neg false a
  | ninf =>
    cases x with
    | nan => rfl
    | pinf => rfl
    | ninf => rfl
    | fin a => exact inf_times_neg true a

/-! ### The membership test outside the box -/

/-- Left-hand side of the comparison in `hit_test`, with the first term `A`
standing for `a * a * (y * y + z * z)`. -/
theorem hit_test_eq (x y z : F32) :
    hit_test x y z = F32.le
      (F32.add
        (F32.sub (F32.mul (F32.fin (4 * 2 ^ 149)) (F32.add (F32.mul y y) (F32.mul z z)))
          (F32.mul (F32.fin (2 * 2 ^ 149)) (F32.mul (F32.mul x x) x)))
        (F32.mul (F32.mul (F32.mul x x) x) x))
      (F32.fin 0) := by
  have h2 : F32.lit 2 1 = F32.fin (2 * 2 ^ 149) := by decide!
  have h4 : F32.mul (F32.fin (2 * 2 ^ 149)) (F32.fin (2 * 2 ^ 149)) = F32.fin (4 * 2 ^ 149) := by
    decide!
  unfold hit_test
  simp only [h2, h4, lit_zero]

/-- The first term of the comparison is never negative. -/
theorem first_term_NGE (y z : F32) :
    NGE 0 (F32.mul (F32.fin (4 * 2 ^ 149)) (F32.add (F32.mul y y) (F32.mul z z))) := by
  have hS := add_NGE 0 0 0 _ _ (by decide) (mul_self_NGE y) (mul_self_NGE z)
  rcases hS with h | h | ⟨n, h, hn⟩
  · rw [h]; left; rfl
  · rw [h]; right; left; decide!
  · rw [h]
    right
    simp only [F32.mul]
    apply round_GE _ _ 0 1 0 unit_pos (by norm_num) _ (round_zero 1)
    have hU : (0 : ℚ) < ((UNIT : Nat) : ℚ) := by exact_mod_cast unit_pos
    have : (0 : ℚ) ≤ (n : ℚ) := by exact_mod_cast hn
    push_cast
    simp only [zero_div]
    exact div_nonneg (mul_nonneg (by positivity) this) (le_of_lt hU)

/-- The comparison fails for `x <= -2^(-49)`: the term `-a * x^3` is positive. -/
theorem not_hit_x_low (A : F32) (X : Int) (hA : NGE 0 A) (hX : X ≤ -(2 ^ 100)) :
    F32.le
      (F32.add
        (F32.sub A (F32.mul (F32.fin (2 * 2 ^ 149)) (F32.mul (F32.mul (F32.fin X) (F32.fin X))
          (F32.fin X))))
        (F32.mul (F32.mul (F32.mul (F32.fin X) (F32.fin X)) (F32.fin X)) (F32.fin X)))
      (F32.fin 0) = false := by
  obtain ⟨w, rfl⟩ : ∃ w : Int, X = -w := ⟨-X, by ring⟩
  have hw : (2 : Int) ^ 100 ≤ w := by omega
  have e1 : F32.fin (-w) = F32.neg (F32.fin w) := rfl
  rw [e1]
  simp only [mul_neg_right, mul_neg_left, neg_neg_f32, F32.sub]
  have hxw : NGE (2 ^ 100) (F32.fin w) := Or.inr (Or.inr ⟨w, rfl, hw⟩)
  have c1 : F32.mul (F32.fin (2 ^ 100)) (F32.fin (2 ^ 100)) = F32.fin (2 ^ 51) := by decide!
  have c2 : F32.mul (F32.fin (2 ^ 51)) (F32.fin (2 ^ 100)) = F32.fin 4 := by decide!
  have c3 : F32.mul (F32.fin (2 * 2 ^ 149)) (F32.fin 4) = F32.fin 8 := by decide!
  have c4 : F32.mul (F32.fin 4) (F32.fin (2 ^ 100)) = F32.fin 0 := by decide!
  have c5 : F32.add (F32.fin 0) (F32.fin 8) = F32.fin 8 := by decide!
  have c6 : F32.add (F32.fin 8) (F32.fin 0) = F32.fin 8 := by decide!
  have p2 := mul_NGE _ _ _ _ _ (by norm_num) (by norm_num) c1 hxw hxw
  have p3 := mul_NGE _ _ _ _ _ (by norm_num) (by norm_num) c2 p2 hxw
  have hB := mul_NGE (2 * 2 ^ 149) 4 8 (F32.fin (2 * 2 ^ 149)) _ (by norm_num) (by norm_num) c3
    (Or.inr (Or.inr ⟨_, rfl, le_rfl⟩)) p3
  have hC := mul_NGE _ _ _ _ _ (by norm_num) (by norm_num) c4 p3 hxw
  have hD := add_NGE _ _ _ _ _ c5 hA hB
  have hR := add_NGE _ _ _ _ _ c6 hD hC
  exact NGE_not_le 8 _ (by norm_num) hR

theorem mul_valid (x y : F32) : F32.Valid (F32.mul x y) := by
  cases x <;> cases y <;> simp only [F32.mul] <;>
    first
      | trivial
      | exact round_valid _ _ unit_pos
      | (unfold inf_times; split_ifs <;> trivial)

theorem eq_pinf_of_key (v : F32) (hv : F32.Valid v) (hn : v ≠ F32.nan)
    (h : (OVERFLOW : Int) ≤ key v) : v = F32.pinf := by
  have hO := overflow_pos
  cases v with
  | nan => exact absurd rfl hn
  | pinf => rfl
  | ninf => simp only [key] at h; omega
  | fin n =>
    obtain ⟨h1, _⟩ := hv
    rw [key_fin] at h
    omega

/-- The comparison fails when `x` is not finite. -/
theorem not_hit_x_nonfinite (A x : F32) (hx : ∀ n, x ≠ F32.fin n) :
    F32.le
      (F32.add
        (F32.sub A (F32.mul (F32.fin (2 * 2 ^ 149)) (F32.mul (F32.mul x x) x)))
        (F32.mul (F32.mul (F32.mul x x) x) x))
      (F32.fin 0) = false := by
  have b1 : F32.mul (F32.fin (2 * 2 ^ 149)) F32.pinf = F32.pinf := by decide!
  have b2 : F32.mul (F32.fin (2 * 2 ^ 149)) F32.ninf = F32.ninf := by decide!
  cases x with
  | fin n => exact absurd rfl (hx n)
  | nan =>
    have : F32.mul (F32.mul F32.nan F32.nan) F32.nan = F32.nan := rfl
    rw [this, mul_nan_right]
    cases A <;> rfl
  | pinf =>
    have : F32.mul (F32.mul F32.pinf F32.pinf) F32.pinf = F32.pinf := rfl
    rw [this, b1]
    cases A <;> rfl
  | ninf =>
    have : F32.mul (F32.mul F32.ninf F32.ninf) F32.ninf = F32.ninf := rfl
    rw [this, b2]
    cases A <;> rfl

/-- A positive value in the normal range rounds to more than any integer below
the value reduced by the relative error `2^(-24)`. -/
theorem round_above (num : Int) (den : Nat) (hd : 0 < den) (c : Int)
    (h23 : (2 : ℚ) ^ 23 ≤ (num : ℚ) / den)
    (hc : (c : ℚ) < (num : ℚ) / den * (1 - 1 / 2 ^ 24)) : GE (c + 1) (F32.round num den) := by
  have hv0 : (0 : ℚ) < (num : ℚ) / den := lt_of_lt_of_le (by positivity) h23
  have hn : ¬ num < 0 := fun h => by
    have := (ratio_neg_iff num den hd).mpr h
    linarith
  obtain ⟨k, e1, _, e3⟩ := mag_err num.natAbs den hd
  rw [abs_ratio, abs_of_pos hv0] at e1 e3
  have herr : (2 : ℚ) ^ k / 2 ≤ (num : ℚ) / den / 2 ^ 24 := by
    rcases e3 with rfl | e3
    · rw [le_div_iff₀ (by positivity)]
      norm_num
      norm_num at h23
      linarith
    · rw [le_div_iff₀ (by positivity)]
      have : (2 : ℚ) ^ (23 + k) = 2 ^ k / 2 * 2 ^ 24 := by
        rw [pow_add]; ring
      linarith
  have hm : (c : ℚ) < (mag num.natAbs den : ℚ) := by
    have := (abs_le.mp e1).1
    have e : (num : ℚ) / den * (1 - 1 / 2 ^ 24) = (num : ℚ) / den - (num : ℚ) / den / 2 ^ 24 := by
      ring
    linarith
  have hm1 : c < (mag num.natAbs den : Int) := by exact_mod_cast hm
  unfold F32.round
  simp only [hn, if_false]
  split_ifs
  · exact Or.inl rfl
  · exact Or.inr ⟨_, rfl, by omega⟩

/-- A binary32 value above `2.0` is at least `2.0 + 2^(-22)`. -/
theorem valid_gt_two (X : Int) (hv : F32.Valid (F32.fin X)) (hX : 2 * 2 ^ 149 < X) :
    2 * 2 ^ 149 + 2 ^ 127 ≤ X := by
  have h1 : 2 ^ (23 + 127) ≤ X.natAbs := by
    have : (2 : Int) * 2 ^ 149 = ((2 ^ (23 + 127) : Nat) : Int) := by norm_num
    omega
  obtain ⟨t, ht⟩ := valid_dvd X hv 127 h1
  have hX2 : X = ((X.natAbs : Nat) : Int) := by omega
  rw [hX2, ht] at hX ⊢
  have e1 : (2 : Int) * 2 ^ 149 = ((2 ^ 127 * 2 ^ 23 : Nat) : Int) := by norm_num
  have e2 : (2 : Int) * 2 ^ 149 + 2 ^ 127 = ((2 ^ 127 * (2 ^ 23 + 1) : Nat) : Int) := by norm_num
  rw [e1] at hX
  rw [e2]
  have hX3 : 2 ^ 127 * 2 ^ 23 < 2 ^ 127 * t := by exact_mod_cast hX
  have ht2 : 2 ^ 23 < t := Nat.lt_of_mul_lt_mul_left hX3
  exact_mod_cast Nat.mul_le_mul_left (2 ^ 127) (by omega : 2 ^ 23 + 1 ≤ t)

/-- The comparison fails for `x > 2`: there `x^4` exceeds `a * x^3` by more
than the rounding errors. -/
theorem not_hit_x_high (A : F32) (X : Int) (hA : NGE 0 A) (hv : F32.Valid (F32.fin X))
    (hX : 2 * 2 ^ 149 < X) :
    F32.le
      (F32.add
        (F32.sub A (F32.mul (F32.fin (2 * 2 ^ 149)) (F32.mul (F32.mul (F32.fin X) (F32.fin X))
          (F32.fin X))))
        (F32.mul (F32.mul (F32.mul (F32.fin X) (F32.fin X)) (F32.fin X)) (F32.fin X)))
      (F32.fin 0) = false := by
  have hX1 := valid_gt_two X hv hX
  have hxN : NGE (2 * 2 ^ 149) (F32.fin X) := Or.inr (Or.inr ⟨X, rfl, by omega⟩)
  have c1 : F32.mul (F32.fin (2 * 2 ^ 149)) (F32.fin (2 * 2 ^ 149)) = F32.fin (4 * 2 ^ 149) := by
    decide!
  have c2 : F32.mul (F32.fin (4 * 2 ^ 149)) (F32.fin (2 * 2 ^ 149)) = F32.fin (8 * 2 ^ 149) := by
    decide!
  have b1 : F32.mul (F32.fin (2 * 2 ^ 149)) F32.pinf = F32.pinf := by decide!
  have p2 := mul_NGE _ _ _ _ _ (by norm_num) (by norm_num) c1 hxN hxN
  have p3 := mul_NGE _ _ _ _ _ (by norm_num) (by norm_num) c2 p2 hxN
  have pv := mul_valid (F32.mul (F32.fin X) (F32.fin X)) (F32.fin X)
  generalize F32.mul (F32.mul (F32.fin X) (F32.fin X)) (F32.fin X) = P at p3 pv ⊢
  have hXpos : ¬ X < 0 := by omega
  have hX0 : X ≠ 0 := by omega
  have cinf : F32.mul F32.pinf (F32.fin X) = F32.pinf := by
    simp [F32.mul, inf_times, hXpos, hX0]
  rcases p3 with rfl | rfl | ⟨m, rfl, hm⟩
  · rw [mul_nan_right]
    cases A <;> rfl
  · rw [b1, cinf]
    cases A <;> rfl
  · have hUq : (0 : ℚ) < ((UNIT : Nat) : ℚ) := by exact_mod_cast unit_pos
    have hm0 : 0 < m := by omega
    have hmq : (0 : ℚ) < (m : ℚ) := by exact_mod_cast hm0
    -- the product a * x^3 is the exact double
    have eB : F32.mul (F32.fin (2 * 2 ^ 149)) (F32.fin m) = F32.round (2 * m) 1 := by
      simp only [F32.mul]
      apply round_congr _ _ _ _ unit_pos (by norm_num)
      rw [unit_cast]
      push_cast
      field_simp
      ring
    -- the exact value of x^3 * x is at least (2 + 2^(-22)) m
    have hXq : (2 : ℚ) * 2 ^ 149 + 2 ^ 127 ≤ (X : ℚ) := by exact_mod_cast hX1
    have hvC : (m : ℚ) * (2 + 1 / 2 ^ 22) ≤ ((m * X : Int) : ℚ) / ((UNIT : Nat) : ℚ) := by
      rw [unit_cast, le_div_iff₀ (by positivity)]
      push_cast
      have : (m : ℚ) * (2 + 1 / 2 ^ 22) * 2 ^ 149 = (m : ℚ) * (2 * 2 ^ 149 + 2 ^ 127) := by
        norm_num
        ring
      rw [this]
      exact mul_le_mul_of_nonneg_left hXq (le_of_lt hmq)
    by_cases hO : 2 * m < (OVERFLOW : Int)
    · have hO' : 2 * m.natAbs < OVERFLOW := by omega
      have vd := valid_double m pv hO'
      have eB2 : F32.round (2 * m) 1 = F32.fin (2 * m) :=
        round_of_valid (2 * m) vd (2 * m) 1 (by norm_num) (by simp)
      have hC : GE (2 * m + 1) (F32.mul (F32.fin m) (F32.fin X)) := by
        simp only [F32.mul]
        apply round_above _ _ unit_pos
        · have h8 : (8 : ℚ) * 2 ^ 149 ≤ (m : ℚ) := by exact_mod_cast hm
          have h9 : (2 : ℚ) ^ 23 ≤ 8 * 2 ^ 149 := by norm_num
          have h10 : (m : ℚ) ≤ (m : ℚ) * (2 + 1 / 2 ^ 22) :=
            le_mul_of_one_le_right (le_of_lt hmq) (by norm_num)
          exact le_trans (le_trans (le_trans h9 h8) h10) hvC
        · have : ((2 * m : Int) : ℚ) < (m : ℚ) * (2 + 1 / 2 ^ 22) * (1 - 1 / 2 ^ 24) := by
            push_cast
            have e : (m : ℚ) * (2 + 1 / 2 ^ 22) * (1 - 1 / 2 ^ 24)
                = 2 * (m : ℚ) + (m : ℚ) * (1 / 2 ^ 23 - 1 / 2 ^ 46) := by ring
            rw [e]
            have : (0 : ℚ) < (m : ℚ) * (1 / 2 ^ 23 - 1 / 2 ^ 46) :=
              mul_pos hmq (by norm_num)
            linarith
          have h2 : (m : ℚ) * (2 + 1 / 2 ^ 22) * (1 - 1 / 2 ^ 24)
              ≤ ((m * X : Int) : ℚ) / ((UNIT : Nat) : ℚ) * (1 - 1 / 2 ^ 24) :=
            mul_le_mul_of_nonneg_right hvC (by norm_num)
          linarith
      rw [eB, eB2]
      have e0 : F32.add (F32.fin 0) (F32.fin (-(2 * m))) = F32.fin (-(2 * m)) := by
        simp only [F32.add, zero_add]
        exact round_of_valid _ (valid_neg _ vd) _ 1 (by norm_num) (by simp)
      have e1 : F32.add (F32.fin (-(2 * m))) (F32.fin (2 * m + 1)) = F32.fin 1 := by
        simp only [F32.add]
        have : -(2 * m) + (2 * m + 1) = 1 := by ring
        rw [this]
        decide!
      have hD : NGE (-(2 * m)) (F32.sub A (F32.fin (2 * m))) :=
        add_NGE 0 (-(2 * m)) _ A _ e0 hA (Or.inr (Or.inr ⟨_, rfl, le_rfl⟩))
      have hR := add_NGE _ _ _ _ _ e1 hD (Or.inr hC)
      exact NGE_not_le 1 _ (by norm_num) hR
    · have eO : F32.round (OVERFLOW : Int) 1 = F32.pinf := by decide!
      have hOq : ((OVERFLOW : Int) : ℚ) ≤ 2 * (m : ℚ) := by
        have : (OVERFLOW : Int) ≤ 2 * m := by omega
        exact_mod_cast this
      have kB := key_round_mono (OVERFLOW : Int) 1 (2 * m) 1 (by norm_num) (by norm_num) (by
        push_cast; simpa using hOq)
      rw [eO] at kB
      have hB : F32.round (2 * m) 1 = F32.pinf :=
        eq_pinf_of_key _ (round_valid _ _ (by norm_num)) (round_ne_nan _ _) kB
      have kC := key_round_mono (OVERFLOW : Int) 1 (m * X) UNIT (by norm_num) unit_pos (by
        have : (m : ℚ) * 2 ≤ (m : ℚ) * (2 + 1 / 2 ^ 22) :=
          mul_le_mul_of_nonneg_left (by norm_num) (le_of_lt hmq)
        have h3 : (((OVERFLOW : Nat) : Int) : ℚ) / ((1 : Nat) : ℚ) = ((OVERFLOW : Int) : ℚ) := by
          simp
        rw [h3]
        linarith)
      rw [eO] at kC
      have hC : F32.mul (F32.fin m) (F32.fin X) = F32.pinf := by
        simp only [F32.mul]
        exact eq_pinf_of_key _ (round_valid _ _ unit_pos) (round_ne_nan _ _) kC
      rw [eB, hB, hC]
      cases A <;> rfl

theorem add_comm_f32 (x y : F32) : F32.add x y = F32.add y x := by
  cases x <;> cases y <;> simp only [F32.add, add_comm]

/-- Binary32 values of `a * x^3` and `x^4` for `|x| <= 2`: finite, each within
`7 * 2^(-19)` of the exact value. -/
theorem cube_quart_err (X : Int) (hx : |(F32.fin X).toRat| ≤ 2) :
    ∃ m7 m9 : Int,
      F32.mul (F32.fin (2 * 2 ^ 149)) (F32.mul (F32.mul (F32.fin X) (F32.fin X)) (F32.fin X))
        = F32.fin m7 ∧
      F32.mul (F32.mul (F32.mul (F32.fin X) (F32.fin X)) (F32.fin X)) (F32.fin X) = F32.fin m9 ∧
      |(F32.fin m7).toRat - 2 * (F32.fin X).toRat ^ 3| ≤ 7 / 2 ^ 19 ∧
      |(F32.fin m9).toRat - (F32.fin X).toRat ^ 4| ≤ 7 / 2 ^ 19 ∧
      |(F32.fin m7).toRat| ≤ 17 ∧ |(F32.fin m9).toRat| ≤ 17 := by
  have v2 : (F32.fin (2 * 2 ^ 149)).toRat = 2 := by rw [toRat_fin]; norm_num
  obtain ⟨m5, r5, e5⟩ := mul_err64 X X
    (lt_of_le_of_lt (abs_mul_le _ _ 2 2 hx hx) (by norm_num))
  have b5 := abs_bound _ _ _ _ e5 (abs_mul_le _ _ 2 2 hx hx)
  have s6 := abs_mul_le _ _ _ 2 b5 hx
  obtain ⟨m6, r6, e6⟩ := mul_err64 m5 X (lt_of_le_of_lt s6 (by norm_num))
  have b6 := abs_bound _ _ _ _ e6 s6
  have s7 := abs_mul_le (F32.fin (2 * 2 ^ 149)).toRat _ 2 _ (by rw [v2]; norm_num) b6
  obtain ⟨m7, r7, e7⟩ := mul_err64 (2 * 2 ^ 149) m6 (lt_of_le_of_lt s7 (by norm_num))
  have b7 := abs_bound _ _ _ _ e7 s7
  have s9 := abs_mul_le _ _ _ 2 b6 hx
  obtain ⟨m9, r9, e9⟩ := mul_err64 m6 X (lt_of_le_of_lt s9 (by norm_num))
  have b9 := abs_bound _ _ _ _ e9 s9
  refine ⟨m7, m9, by rw [r5, r6, r7], by rw [r5, r6, r9], ?_, ?_,
    le_trans b7 (by norm_num), le_trans b9 (by norm_num)⟩
  · rw [v2] at e7
    generalize (F32.fin X).toRat = x at *
    generalize (F32.fin m5).toRat = q5 at *
    generalize (F32.fin m6).toRat = q6 at *
    generalize (F32.fin m7).toRat = q7 at *
    have t1 : |(q5 - x * x) * x| ≤ 1 / 2 ^ 19 * 2 := abs_mul_le _ _ _ _ e5 hx
    have key : q7 - 2 * x ^ 3 = (q7 - 2 * q6) + 2 * (q6 - q5 * x) + 2 * ((q5 - x * x) * x) := by
      ring
    rw [key, abs_le]
    rw [abs_le] at e6 e7 t1
    constructor <;> linarith [e6.1, e6.2, e7.1, e7.2, t1.1, t1.2]
  · generalize (F32.fin X).toRat = x at *
    generalize (F32.fin m5).toRat = q5 at *
    generalize (F32.fin m6).toRat = q6 at *
    generalize (F32.fin m9).toRat = q9 at *
    have t1 : |(q5 - x * x) * x| ≤ 1 / 2 ^ 19 * 2 := abs_mul_le _ _ _ _ e5 hx
    have t2 : |(q5 - x * x) * x * x| ≤ 1 / 2 ^ 19 * 2 * 2 := abs_mul_le _ _ _ _ t1 hx
    have t3 : |(q6 - q5 * x) * x| ≤ 1 / 2 ^ 19 * 2 := abs_mul_le _ _ _ _ e6 hx
    have key : q9 - x ^ 4 = (q9 - q6 * x) + (q6 - q5 * x) * x + (q5 - x * x) * x * x := by
      ring
    rw [key, abs_le]
    rw [abs_le] at e9 t2 t3
    constructor <;> linarith [e9.1, e9.2, t2.1, t2.2, t3.1, t3.2]

/-- The comparison fails for every `|x| <= 2` once the first term is at least
`14176749 / 2^23`, which exceeds the maximum `27/16` of `2 x^3 - x^4`. -/
theorem not_hit_y_large (A : F32) (X : Int) (hA : NGE (14176749 * 2 ^ 126) A)
    (hx : |(F32.fin X).toRat| ≤ 2) :
    F32.le
      (F32.add
        (F32.sub A (F32.mul (F32.fin (2 * 2 ^ 149)) (F32.mul (F32.mul (F32.fin X) (F32.fin X))
          (F32.fin X))))
        (F32.mul (F32.mul (F32.mul (F32.fin X) (F32.fin X)) (F32.fin X)) (F32.fin X)))
      (F32.fin 0) = false := by
  obtain ⟨m7, m9, r7, r9, e7, e9, b7, b9⟩ := cube_quart_err X hx
  rw [r7, r9]
  have vA : (F32.fin (14176749 * 2 ^ 126)).toRat = 14176749 / 2 ^ 23 := by
    rw [toRat_fin]; norm_num
  have vneg : (F32.fin (-m7)).toRat = -(F32.fin m7).toRat := by
    rw [toRat_fin, toRat_fin]; push_cast; ring
  have bn : |(F32.fin (-m7)).toRat| ≤ 17 := by rw [vneg, abs_neg]; exact b7
  have s1 : |(F32.fin (14176749 * 2 ^ 126)).toRat + (F32.fin (-m7)).toRat| ≤ 2 + 17 :=
    le_trans (abs_add _ _) (add_le_add (by rw [vA]; rw [abs_le]; constructor <;> norm_num) bn)
  obtain ⟨d0, hd0, ed⟩ := add_err64 (14176749 * 2 ^ 126) (-m7) (lt_of_le_of_lt s1 (by norm_num))
  have bd := abs_bound _ _ _ _ ed s1
  have s2 := le_trans (abs_add (F32.fin d0).toRat (F32.fin m9).toRat) (add_le_add bd b9)
  obtain ⟨r0, hr0, er⟩ := add_err64 d0 m9 (lt_of_le_of_lt s2 (by norm_num))
  have hD : NGE d0 (F32.sub A (F32.fin m7)) :=
    add_NGE _ (-m7) _ A _ hd0 hA (Or.inr (Or.inr ⟨_, rfl, le_rfl⟩))
  have hR := add_NGE _ _ _ _ _ hr0 hD (Or.inr (Or.inr ⟨m9, rfl, le_rfl⟩))
  apply NGE_not_le r0 _ _ hR
  -- the lower bound of the sum is positive
  rw [vA, vneg] at ed
  have hpos : 0 < (F32.fin r0).toRat := by
    generalize (F32.fin X).toRat = x at *
    generalize (F32.fin m7).toRat = q7 at *
    generalize (F32.fin m9).toRat = q9 at *
    generalize (F32.fin d0).toRat = qd at *
    generalize (F32.fin r0).toRat = qr at *
    have hpoly : 2 * x ^ 3 - x ^ 4 ≤ 27 / 16 := by
      nlinarith [sq_nonneg ((x - 3 / 2) * (x + 1 / 2)), sq_nonneg (x - 3 / 2)]
    rw [abs_le] at e7 e9 ed er
    have : (27 : ℚ) / 16 + 16 / 2 ^ 19 < 14176749 / 2 ^ 23 := by norm_num
    linarith [e7.1, e7.2, e9.1, e9.2, ed.1, ed.2, er.1, er.2]
  rw [toRat_fin] at hpos
  have h2 : (0 : ℚ) < (r0 : ℚ) := by
    have hu : (0 : ℚ) < 2 ^ 149 := by positivity
    have := mul_pos hpos hu
    rwa [div_mul_cancel₀ _ (ne_of_gt hu)] at this
  exact_mod_cast h2

/-- A non-negative (or NaN) value times a positive finite value is non-negative
(or NaN). -/
theorem mul_pos_right_NGE (x : F32) (b : Int) (hb : 0 < b) (hx : NGE 0 x) :
    NGE 0 (F32.mul x (F32.fin b)) := by
  rcases hx with rfl | rfl | ⟨n, rfl, hn⟩
  · left; rfl
  · right; left
    have h1 : b ≠ 0 := by omega
    have h2 : ¬ b < 0 := by omega
    simp [F32.mul, inf_times, h1, h2]
  · right
    simp only [F32.mul]
    apply round_GE _ _ 0 1 0 unit_pos (by norm_num) _ (round_zero 1)
    have hU : (0 : ℚ) < ((UNIT : Nat) : ℚ) := by exact_mod_cast unit_pos
    have n0 : (0 : ℚ) ≤ (n : ℚ) := by exact_mod_cast hn
    have b0 : (0 : ℚ) ≤ (b : ℚ) := by exact_mod_cast (le_of_lt hb)
    push_cast
    simp only [zero_div]
    exact div_nonneg (mul_nonneg n0 b0) (le_of_lt hU)

/-- The comparison fails for every negative `x` whose cube `x * x * x` does not
round to zero: the term `-a * (x * x * x)` is then at least two units. -/
theorem not_hit_x_neg (A : F32) (X : Int) (hA : NGE 0 A) (hX : X < 0)
    (hP : F32.mul (F32.mul (F32.fin X) (F32.fin X)) (F32.fin X) ≠ F32.fin 0) :
    F32.le
      (F32.add
        (F32.sub A (F32.mul (F32.fin (2 * 2 ^ 149)) (F32.mul (F32.mul (F32.fin X) (F32.fin X))
          (F32.fin X))))
        (F32.mul (F32.mul (F32.mul (F32.fin X) (F32.fin X)) (F32.fin X)) (F32.fin X)))
      (F32.fin 0) = false := by
  obtain ⟨w, rfl⟩ : ∃ w : Int, X = -w := ⟨-X, by ring⟩
  have hw : 0 < w := by omega
  have e1 : F32.fin (-w) = F32.neg (F32.fin w) := rfl
  rw [e1] at hP ⊢
  simp only [mul_neg_right, mul_neg_left, neg_neg_f32, F32.sub] at hP ⊢
  have p3 : NGE 0 (F32.mul (F32.mul (F32.fin w) (F32.fin w)) (F32.fin w)) :=
    mul_pos_right_NGE _ w hw (mul_self_NGE (F32.fin w))
  have hC := mul_pos_right_NGE _ w hw p3
  generalize F32.mul (F32.mul (F32.fin w) (F32.fin w)) (F32.fin w) = P at hP p3 hC ⊢
  have p1 : NGE 1 P := by
    rcases p3 with rfl | rfl | ⟨n, rfl, hn⟩
    · left; rfl
    · right; left; rfl
    · right; right
      refine ⟨n, rfl, ?_⟩
      have : n ≠ 0 := by
        intro h0
        subst h0
        exact hP rfl
      omega
  have c3 : F32.mul (F32.fin (2 * 2 ^ 149)) (F32.fin 1) = F32.fin 2 := by decide!
  have c5 : F32.add (F32.fin 0) (F32.fin 2) = F32.fin 2 := by decide!
  have c6 : F32.add (F32.fin 2) (F32.fin 0) = F32.fin 2 := by decide!
  have hB := mul_NGE (2 * 2 ^ 149) 1 2 (F32.fin (2 * 2 ^ 149)) _ (by norm_num) (by norm_num) c3
    (Or.inr (Or.inr ⟨_, rfl, le_rfl⟩)) p1
  have hD := add_NGE _ _ _ _ _ c5 hA hB
  have hR := add_NGE _ _ _ _ _ c6 hD hC
  exact NGE_not_le 2 _ (by norm_num) hR

theorem axis_range_values :
    x_min = F32.fin 0 ∧ x_max = F32.fin (2 * 2 ^ 149) ∧
    y_min = F32.fin (-(10905190 * 2 ^ 125)) ∧ y_max = F32.fin (10905190 * 2 ^ 125) ∧
    z_min = F32.fin (-(10905190 * 2 ^ 125)) ∧ z_max = F32.fin (10905190 * 2 ^ 125) := by
  decide!

/-- A binary32 value of magnitude above `0.65f` has magnitude at least the next
binary32 value, `10905191 / 2^24`. -/
theorem valid_gt_y_max (Y : Int) (hv : F32.Valid (F32.fin Y))
    (hY : 10905190 * 2 ^ 125 < Y.natAbs) : 10905191 * 2 ^ 125 ≤ Y.natAbs := by
  have h1 : 2 ^ (23 + 125) ≤ Y.natAbs := by
    have : 2 ^ (23 + 125) ≤ 10905190 * 2 ^ 125 := by norm_num
    omega
  obtain ⟨t, ht⟩ := valid_dvd Y hv 125 h1
  rw [ht] at hY ⊢
  have e1 : 10905190 * 2 ^ 125 = 2 ^ 125 * 10905190 := by ring
  have e2 : 10905191 * 2 ^ 125 = 2 ^ 125 * 10905191 := by ring
  rw [e1] at hY
  rw [e2]
  have ht2 : 10905190 < t := Nat.lt_of_mul_lt_mul_left hY
  exact Nat.mul_le_mul_left (2 ^ 125) (by omega : 10905191 ≤ t)

/-- Outside `[y_min, y_max]` the first term of the comparison is NaN or at
least `14176749 / 2^23`. -/
theorem first_term_large (y z : F32) (vy : F32.Valid y)
    (hy : ¬ (F32.le y_min y = true ∧ F32.le y y_max = true)) :
    NGE (14176749 * 2 ^ 126)
      (F32.mul (F32.fin (4 * 2 ^ 149)) (F32.add (F32.mul y y) (F32.mul z z))) := by
  obtain ⟨_, _, hmin, hmax, _, _⟩ := axis_range_values
  rw [hmin, hmax] at hy
  have i1 : F32.mul (F32.fin (4 * 2 ^ 149)) F32.pinf = F32.pinf := by decide!
  have hz := mul_self_NGE z
  have hinf : NGE (14176749 * 2 ^ 126)
      (F32.mul (F32.fin (4 * 2 ^ 149)) (F32.add F32.pinf (F32.mul z z))) := by
    rcases hz with h | h | ⟨n, h, _⟩
    · rw [h]; left; rfl
    · rw [h]; right; left; exact i1
    · rw [h]; right; left; exact i1
  cases y with
  | nan =>
    left
    have : F32.mul F32.nan F32.nan = F32.nan := rfl
    rw [this]
    have : F32.add F32.nan (F32.mul z z) = F32.nan := by cases F32.mul z z <;> rfl
    rw [this]
    rfl
  | pinf => exact hinf
  | ninf => exact hinf
  | fin Y =>
    have hY : 10905190 * 2 ^ 125 < Y.natAbs := by
      simp only [F32.le, decide_eq_true_eq, not_and, not_le] at hy
      by_cases h : -(10905190 * 2 ^ 125) ≤ Y
      · have := hy h
        omega
      · omega
    have hY1 := valid_gt_y_max Y vy hY
    have c1 : F32.round (10905191 * 2 ^ 125 * (10905191 * 2 ^ 125)) UNIT
        = F32.fin (14176749 * 2 ^ 124) := by decide!
    have c2 : F32.add (F32.fin (14176749 * 2 ^ 124)) (F32.fin 0) = F32.fin (14176749 * 2 ^ 124) := by
      decide!
    have c3 : F32.mul (F32.fin (4 * 2 ^ 149)) (F32.fin (14176749 * 2 ^ 124))
        = F32.fin (14176749 * 2 ^ 126) := by decide!
    have hyy : NGE (14176749 * 2 ^ 124) (F32.mul (F32.fin Y) (F32.fin Y)) := by
      right
      simp only [F32.mul]
      apply round_GE _ _ _ _ _ unit_pos unit_pos _ c1
      have hU : (0 : ℚ) < ((UNIT : Nat) : ℚ) := by exact_mod_cast unit_pos
      apply div_le_div_of_nonneg_right _ (le_of_lt hU)
      have e : Y * Y = ((Y.natAbs * Y.natAbs : Nat) : Int) := by
        push_cast
        rw [← abs_mul_abs_self Y, Int.abs_eq_natAbs]
      have h3 : 10905191 * 2 ^ 125 * (10905191 * 2 ^ 125) ≤ Y.natAbs * Y.natAbs :=
        Nat.mul_le_mul hY1 hY1
      rw [e]
      exact_mod_cast h3
    have hS := add_NGE _ _ _ _ _ c2 hyy hz
    exact mul_NGE (4 * 2 ^ 149) _ _ (F32.fin (4 * 2 ^ 149)) _ (by norm_num) (by norm_num) c3
      (Or.inr (Or.inr ⟨_, rfl, le_rfl⟩)) hS

/-- C2 (as stated, refuted): `hit_test(-2^(-60), 0, 0)` is true, since
`x * x * x` underflows to zero, while `x < x_min = 0`. -/
theorem hit_test_outside_box :
    F32.Valid (F32.fin (-(2 ^ 89))) ∧ (F32.fin (-(2 ^ 89))).toRat = -(1 / 2 ^ 60) ∧
    F32.mul (F32.mul (F32.fin (-(2 ^ 89))) (F32.fin (-(2 ^ 89)))) (F32.fin (-(2 ^ 89)))
      = F32.fin 0 ∧
    hit_test (F32.fin (-(2 ^ 89))) (F32.fin 0) (F32.fin 0) = true ∧
    F32.le x_min (F32.fin (-(2 ^ 89))) = false := by
  refine ⟨by decide!, ?_, by decide!, by decide!, by decide!⟩
  rw [toRat_fin]
  norm_num

/-- A finite bound on both sides leaves only finite values. -/
theorem finite_of_le (lo hi : Int) (y : F32) (h1 : F32.le (F32.fin lo) y = true)
    (h2 : F32.le y (F32.fin hi) = true) : ∃ Y : Int, y = F32.fin Y := by
  cases y with
  | fin Y => exact ⟨Y, rfl⟩
  | nan => exact absurd h1 Bool.false_ne_true
  | pinf => exact absurd h2 Bool.false_ne_true
  | ninf => exact absurd h1 Bool.false_ne_true

/-- C2 (amended): every binary32 point accepted by `hit_test` is finite and
satisfies `-2^(-49) < x <= x_max`, `y_min <= y <= y_max` and
`z_min <= z <= z_max` for the box of `get_axis_range`; moreover `x_min <= x`
unless the binary32 product `x * x * x` is zero (it underflows). -/
theorem hit_test_in_box (x y z : F32) (vx : F32.Valid x) (vy : F32.Valid y) (vz : F32.Valid z)
    (h : hit_test x y z = true) :
    (∃ X Y Z : Int, x = F32.fin X ∧ y = F32.fin Y ∧ z = F32.fin Z) ∧
    F32.lt (F32.fin (-(2 ^ 100))) x = true ∧ F32.le x (get_axis_range 1) = true ∧
    (F32.le (get_axis_range 0) x = true ∨ F32.mul (F32.mul x x) x = F32.fin 0) ∧
    F32.le (get_axis_range 2) y = true ∧ F32.le y (get_axis_range 3) = true ∧
    F32.le (get_axis_range 4) z = true ∧ F32.le z (get_axis_range 5) = true := by
  obtain ⟨hxmin, hxmax, hymin, hymax, hzmin, hzmax⟩ := axis_range_values
  rw [hit_test_eq] at h
  have hA := first_term_NGE y z
  -- the x coordinate
  have hx : ∃ X : Int, x = F32.fin X ∧ -(2 ^ 100) < X ∧ X ≤ 2 * 2 ^ 149 ∧
      (0 ≤ X ∨ F32.mul (F32.mul (F32.fin X) (F32.fin X)) (F32.fin X) = F32.fin 0) := by
    cases x with
    | fin X =>
      refine ⟨X, rfl, ?_, ?_, ?_⟩
      · by_contra hc
        rw [not_hit_x_low _ X hA (by omega)] at h
        exact Bool.false_ne_true h
      · by_contra hc
        rw [not_hit_x_high _ X hA vx (by omega)] at h
        exact Bool.false_ne_true h
      · by_cases hneg : X < 0
        · right
          by_contra hc
          rw [not_hit_x_neg _ X hA hneg hc] at h
          exact Bool.false_ne_true h
        · left
          omega
    | nan =>
      rw [not_hit_x_nonfinite _ F32.nan (fun n => by simp)] at h
      exact absurd h Bool.false_ne_true
    | pinf =>
      rw [not_hit_x_nonfinite _ F32.pinf (fun n => by simp)] at h
      exact absurd h Bool.false_ne_true
    | ninf =>
      rw [not_hit_x_nonfinite _ F32.ninf (fun n => by simp)] at h
      exact absurd h Bool.false_ne_true
  obtain ⟨X, rfl, hX1, hX2, hX3⟩ := hx
  have hxq : |(F32.fin X).toRat| ≤ 2 := by
    rw [toRat_fin, abs_le]
    have hu : (0 : ℚ) < 2 ^ 149 := by positivity
    have h1 : (-(2 * 2 ^ 149) : ℚ) ≤ (X : ℚ) := by
      have : -(2 * 2 ^ 149) ≤ X := by
        have : (-(2 * 2 ^ 149) : Int) ≤ -(2 ^ 100) := by norm_num
        omega
      exact_mod_cast this
    have h2 : (X : ℚ) ≤ 2 * 2 ^ 149 := by exact_mod_cast hX2
    constructor
    · rw [le_div_iff₀ hu]; linarith
    · rw [div_le_iff₀ hu]; linarith
  have hy : F32.le y_min y = true ∧ F32.le y y_max = true := by
    by_contra hc
    rw [not_hit_y_large _ X (first_term_large y z vy hc) hxq] at h
    exact Bool.false_ne_true h
  have hz : F32.le z_min z = true ∧ F32.le z z_max = true := by
    by_contra hc
    have hc2 : ¬ (F32.le y_min z = true ∧ F32.le z y_max = true) := by
      rw [hymin, hymax]
      rw [hzmin, hzmax] at hc
      exact hc
    rw [add_comm_f32 (F32.mul y y) (F32.mul z z),
      not_hit_y_large _ X (first_term_large z y vz hc2) hxq] at h
    exact Bool.false_ne_true h
  have fy : ∃ Y : Int, y = F32.fin Y := by
    have h1 := hy.1
    have h2 := hy.2
    rw [hymin] at h1
    rw [hymax] at h2
    exact finite_of_le _ _ y h1 h2
  have fz : ∃ Z : Int, z = F32.fin Z := by
    have h1 := hz.1
    have h2 := hz.2
    rw [hzmin] at h1
    rw [hzmax] at h2
    exact finite_of_le _ _ z h1 h2
  obtain ⟨Y, hY⟩ := fy
  obtain ⟨Z, hZ⟩ := fz
  refine ⟨⟨X, Y, Z, rfl, hY, hZ⟩, ?_, ?_, ?_, hy.1, hy.2, hz.1, hz.2⟩
  · simp only [F32.lt, decide_eq_true_eq]
    exact hX1
  · show F32.le (F32.fin X) x_max = true
    rw [hxmax]
    simp only [F32.le, decide_eq_true_eq]
    exact hX2
  · rcases hX3 with h0 | h0
    · left
      show F32.le x_min (F32.fin X) = true
      rw [hxmin]
      simp only [F32.le, decide_eq_true_eq]
      exact h0
    · right
      exact h0

/-- The amended C2 at the accepted point `(3/2, 1/2, 1/4)`. -/
theorem hit_test_in_box_witness :
    (F32.Valid (F32.lit 3 2) ∧ F32.Valid (F32.lit 1 2) ∧ F32.Valid (F32.lit 1 4) ∧
      hit_test (F32.lit 3 2) (F32.lit 1 2) (F32.lit 1 4) = true) ∧
    (∃ X Y Z : Int, F32.lit 3 2 = F32.fin X ∧ F32.lit 1 2 = F32.fin Y ∧
      F32.lit 1 4 = F32.fin Z) ∧
    F32.lt (F32.fin (-(2 ^ 100))) (F32.lit 3 2) = true ∧
    F32.le (F32.lit 3 2) (get_axis_range 1) = true ∧
    (F32.le (get_axis_range 0) (F32.lit 3 2) = true ∨
      F32.mul (F32.mul (F32.lit 3 2) (F32.lit 3 2)) (F32.lit 3 2) = F32.fin 0) ∧
    F32.le (get_axis_range 2) (F32.lit 1 2) = true ∧
    F32.le (F32.lit 1 2) (get_axis_range 3) = true ∧
    F32.le (get_axis_range 4) (F32.lit 1 4) = true ∧
    F32.le (F32.lit 1 4) (get_axis_range 5) = true :=
  ⟨by decide!,
    hit_test_in_box (F32.lit 3 2) (F32.lit 1 2) (F32.lit 1 4) (by decide!) (by decide!)
      (by decide!) (by decide!)⟩

/-- C3 (as stated, refuted): at `(x, y, z) = (1, 1/2, 2^(-13))`, a point of
binary32 values, `hit_test` returns true although
`4 (y^2 + z^2) - 2 x^3 + x^4 = 2^(-24) > 0`: the sum `y * y + z * z` rounds to
`1/4`. -/
theorem hit_test_not_exact :
    (F32.Valid (F32.lit 1 1) ∧ F32.Valid (F32.lit 1 2) ∧ F32.Valid (F32.lit 1 8192)) ∧
    ((F32.lit 1 1).toRat = 1 ∧ (F32.lit 1 2).toRat = 1 / 2 ∧ (F32.lit 1 8192).toRat = 1 / 8192) ∧
    hit_test (F32.lit 1 1) (F32.lit 1 2) (F32.lit 1 8192) = true ∧
    ¬ (4 * ((F32.lit 1 2).toRat ^ 2 + (F32.lit 1 8192).toRat ^ 2) - 2 * (F32.lit 1 1).toRat ^ 3
        + (F32.lit 1 1).toRat ^ 4 ≤ 0) := by
  have h1 : F32.lit 1 1 = F32.fin (2 ^ 149) := by decide!
  have h2 : F32.lit 1 2 = F32.fin (2 ^ 148) := by decide!
  have h3 : F32.lit 1 8192 = F32.fin (2 ^ 136) := by decide!
  have v1 : (F32.lit 1 1).toRat = 1 := by rw [h1, toRat_fin]; norm_num
  have v2 : (F32.lit 1 2).toRat = 1 / 2 := by rw [h2, toRat_fin]; norm_num
  have v3 : (F32.lit 1 8192).toRat = 1 / 8192 := by rw [h3, toRat_fin]; norm_num
  refine ⟨by decide!, ⟨v1, v2, v3⟩, by decide!, ?_⟩
  rw [v1, v2, v3]
  norm_num

/-- C3 (amended): for a point with `|x| <= 2`, `|y| <= 1`, `|z| <= 1`,
`hit_test` is the comparison with zero of the binary32 evaluation of
`a * a * (y * y + z * z) - a * (x * x * x) + x * x * x * x`, `a = 2`; that
evaluation is finite and within `2^(-14)` of the exact value
`p = 4 (y^2 + z^2) - 2 x^3 + x^4`, so `hit_test` returns true when
`p <= -2^(-14)` and false when `p >= 2^(-14)`. -/
theorem hit_test_near_exact (X Y Z : Int)
    (hx : |(F32.fin X).toRat| ≤ 2) (hy : |(F32.fin Y).toRat| ≤ 1) (hz : |(F32.fin Z).toRat| ≤ 1) :
    (∃ m : Int,
      hit_test (F32.fin X) (F32.fin Y) (F32.fin Z) = decide (m ≤ 0) ∧
      |(F32.fin m).toRat -
        (4 * ((F32.fin Y).toRat ^ 2 + (F32.fin Z).toRat ^ 2) - 2 * (F32.fin X).toRat ^ 3
          + (F32.fin X).toRat ^ 4)| < 1 / 2 ^ 14) ∧
    (4 * ((F32.fin Y).toRat ^ 2 + (F32.fin Z).toRat ^ 2) - 2 * (F32.fin X).toRat ^ 3
        + (F32.fin X).toRat ^ 4 ≤ -(1 / 2 ^ 14) →
      hit_test (F32.fin X) (F32.fin Y) (F32.fin Z) = true) ∧
    (1 / 2 ^ 14 ≤ 4 * ((F32.fin Y).toRat ^ 2 + (F32.fin Z).toRat ^ 2) - 2 * (F32.fin X).toRat ^ 3
        + (F32.fin X).toRat ^ 4 →
      hit_test (F32.fin X) (F32.fin Y) (F32.fin Z) = false) := by
  obtain ⟨m, hm, herr⟩ := piriform_eval_err X Y Z hx hy hz
  have hh : hit_test (F32.fin X) (F32.fin Y) (F32.fin Z) = decide (m ≤ 0) := by
    unfold hit_test
    simp only
    rw [hm, lit_zero]
    rfl
  have hu : (0 : ℚ) < 2 ^ 149 := by positivity
  have sgn1 : (F32.fin m).toRat < 0 → m ≤ 0 := by
    intro h
    rw [toRat_fin, div_lt_iff₀ hu, zero_mul] at h
    have : m < 0 := by exact_mod_cast h
    omega
  have sgn2 : 0 < (F32.fin m).toRat → ¬ m ≤ 0 := by
    intro h
    rw [toRat_fin, lt_div_iff₀ hu, zero_mul] at h
    have : 0 < m := by exact_mod_cast h
    omega
  rw [abs_lt] at herr
  refine ⟨⟨m, hh, abs_lt.mpr herr⟩, ?_, ?_⟩
  · intro hp
    rw [hh, decide_eq_true_eq]
    exact sgn1 (by linarith [herr.2])
  · intro hp
    rw [hh, decide_eq_false_iff_not]
    exact sgn2 (by linarith [herr.1])

/-- The amended C3 at the point `(1, 0, 0)`, where the exact value is `-1`. -/
theorem hit_test_near_exact_witness :
    hit_test (F32.fin (2 ^ 149)) (F32.fin 0) (F32.fin 0) = true :=
  (hit_test_near_exact (2 ^ 149) 0 0
    (by rw [toRat_fin]; norm_num) (by rw [toRat_fin]; norm_num) (by rw [toRat_fin]; norm_num)).2.1
    (by rw [toRat_fin, toRat_fin]; norm_num)

/-! ### Range of the draws -/

theorem mul_comm_f32 (x y : F32) : F32.mul x y = F32.mul y x := by
  cases x <;> cases y <;> simp only [F32.mul, mul_comm]

/-- Rounding of a value between two values that round to finite values. -/
theorem round_between2 (num : Int) (den : Nat) (n1 : Int) (d1 : Nat) (n2 : Int) (d2 : Nat)
    (c1 c2 : Int) (hd : 0 < den) (hd1 : 0 < d1) (hd2 : 0 < d2)
    (h1 : (n1 : ℚ) / d1 ≤ (num : ℚ) / den) (h2 : (num : ℚ) / den ≤ (n2 : ℚ) / d2)
    (hc1 : F32.round n1 d1 = F32.fin c1) (hc2 : F32.round n2 d2 = F32.fin c2) :
    ∃ m : Int, F32.round num den = F32.fin m ∧ c1 ≤ m ∧ m ≤ c2 := by
  have l := key_round_mono n1 d1 num den hd1 hd h1
  have u := key_round_mono num den n2 d2 hd hd2 h2
  rw [hc1, key_fin] at l
  rw [hc2, key_fin] at u
  have v1 := round_valid n1 d1 hd1
  have v2 := round_valid n2 d2 hd2
  rw [hc1] at v1
  rw [hc2] at v2
  obtain ⟨b1, _⟩ := v1
  obtain ⟨b2, _⟩ := v2
  refine ⟨key (F32.round num den), ?_, l, u⟩
  exact eq_fin_of_key _ (round_ne_nan _ _) (by omega) (by omega)

/-- The conversion `unsigned -> float` of a 32-bit value lies in `[0, 2^32]`;
from `2^32 - 128` on it is `2^32`. -/
theorem ofNat_range (s : Nat) (hs : s < UINT_MOD) :
    (∃ m : Int, F32.ofNat s = F32.fin m ∧ 0 ≤ m ∧ m ≤ 4294967296 * 2 ^ 149) ∧
    (4294967168 ≤ s → F32.ofNat s = F32.fin (4294967296 * 2 ^ 149)) := by
  have hU : (0 : ℚ) < ((UNIT : Int) : ℚ) := by exact_mod_cast unit_pos
  have e0 : F32.round (0 * (UNIT : Int)) 1 = F32.fin 0 := by decide!
  have e1 : F32.round (4294967168 * (UNIT : Int)) 1 = F32.fin (4294967296 * 2 ^ 149) := by decide!
  have e2 : F32.round (4294967295 * (UNIT : Int)) 1 = F32.fin (4294967296 * 2 ^ 149) := by decide!
  have hs2 : (s : ℚ) ≤ 4294967295 := by
    have : s ≤ 4294967295 := by unfold UINT_MOD at hs; omega
    exact_mod_cast this
  have up : (((s : Int) * (UNIT : Int) : Int) : ℚ) / ((1 : Nat) : ℚ)
      ≤ ((4294967295 * (UNIT : Int) : Int) : ℚ) / ((1 : Nat) : ℚ) := by
    push_cast
    simp only [div_one]
    exact mul_le_mul_of_nonneg_right hs2 (le_of_lt hU)
  constructor
  · unfold F32.ofNat
    apply round_between2 _ _ _ _ _ _ _ _ (by norm_num) (by norm_num) (by norm_num) _ up e0 e2
    push_cast
    simp only [div_one, zero_mul]
    exact mul_nonneg (by positivity) (le_of_lt hU)
  · intro h
    have lo : ((4294967168 * (UNIT : Int) : Int) : ℚ) / ((1 : Nat) : ℚ)
        ≤ (((s : Int) * (UNIT : Int) : Int) : ℚ) / ((1 : Nat) : ℚ) := by
      have : (4294967168 : ℚ) ≤ (s : ℚ) := by exact_mod_cast h
      push_cast
      simp only [div_one]
      exact mul_le_mul_of_nonneg_right this (le_of_lt hU)
    obtain ⟨m, hm, m1, m2⟩ := round_between2 _ _ _ _ _ _ _ _ (by norm_num) (by norm_num)
      (by norm_num) lo up e1 e2
    unfold F32.ofNat
    rw [hm]
    exact congrArg F32.fin (le_antisymm m2 m1)

/-- A draw `next_float(min, d)` with finite `min`, `d >= 0` lies between `min`
and the binary32 value of `min + d * 2^32 * xhh`, whenever the latter products
are finite. -/
theorem next_float_between (Mn D c1 c2 c3 : Int) (s : Nat) (hs : s < UINT_MOD) (hD : 0 ≤ D)
    (h1 : F32.mul (F32.fin D) (F32.fin (4294967296 * 2 ^ 149)) = F32.fin c1)
    (h2 : F32.mul (F32.fin c1) xhh = F32.fin c2)
    (h3 : F32.add (F32.fin Mn) (F32.fin c2) = F32.fin c3)
    (h0 : F32.add (F32.fin Mn) (F32.fin 0) = F32.fin Mn) :
    ∃ v : Int, (Xorshift.next_float (F32.fin Mn) (F32.fin D) s).1 = F32.fin v ∧
      Mn ≤ v ∧ v ≤ c3 := by
  have hO : ∀ c a b, F32.mul (F32.fin a) (F32.fin b) = F32.fin c → c < (OVERFLOW : Int) := by
    intro c a b h
    have := mul_valid (F32.fin a) (F32.fin b)
    rw [h] at this
    obtain ⟨b1, _⟩ := this
    omega
  have hx : xhh = F32.fin (2 ^ 117) := by decide!
  rw [hx] at h2
  obtain ⟨⟨m0, hm0, m00, m01⟩, _⟩ := ofNat_range (Xorshift.step s) (step_lt s hs)
  unfold Xorshift.next_float Xorshift.next
  simp only
  rw [hm0, mul_comm_f32 (F32.fin D) (F32.fin m0), hx]
  rw [mul_comm_f32] at h1
  obtain ⟨t1, ht1, t10, t11⟩ := mul_between m0 _ D c1 m00 m01 hD h1 (hO _ _ _ h1)
  rw [ht1]
  obtain ⟨t2, ht2, t20, t21⟩ := mul_between t1 c1 (2 ^ 117) c2 t10 t11 (by norm_num) h2
    (hO _ _ _ h2)
  rw [ht2]
  simp only [F32.add] at h0 h3 ⊢
  apply round_between2 _ _ _ _ _ _ _ _ (by norm_num) (by norm_num) (by norm_num) _ _ h0 h3
  · have : ((Mn + 0 : Int) : ℚ) ≤ ((Mn + t2 : Int) : ℚ) := by exact_mod_cast (by omega)
    simpa using this
  · have : ((Mn + t2 : Int) : ℚ) ≤ ((Mn + c2 : Int) : ℚ) := by exact_mod_cast (by omega)
    simpa using this

/-- Every coordinate drawn in the sampling loop lies in the closed interval of
its axis: `x_min <= x <= x_max`, and likewise for the `y` and `z` ranges. -/
theorem draws_in_closed_box (s : Nat) (hs : s < UINT_MOD) :
    (∃ v : Int, (Xorshift.next_float x_min xd s).1 = F32.fin v ∧
      F32.le x_min (F32.fin v) = true ∧ F32.le (F32.fin v) x_max = true) ∧
    (∃ v : Int, (Xorshift.next_float y_min yd s).1 = F32.fin v ∧
      F32.le y_min (F32.fin v) = true ∧ F32.le (F32.fin v) y_max = true) ∧
    (∃ v : Int, (Xorshift.next_float z_min zd s).1 = F32.fin v ∧
      F32.le z_min (F32.fin v) = true ∧ F32.le (F32.fin v) z_max = true) := by
  obtain ⟨hx0, hx1, hy0, hy1, hz0, hz1⟩ := axis_range_values
  have hxd : xd = F32.fin (2 * 2 ^ 149) := by decide!
  have hyd : yd = F32.fin (10905190 * 2 ^ 126) := by decide!
  have hzd : zd = F32.fin (10905190 * 2 ^ 126) := by decide!
  have X := next_float_between 0 (2 * 2 ^ 149) (2 * 2 ^ 149 * 4294967296) (2 * 2 ^ 149)
    (2 * 2 ^ 149) s hs (by norm_num) (by decide!) (by decide!) (by decide!) (by decide!)
  have Y := next_float_between (-(10905190 * 2 ^ 125)) (10905190 * 2 ^ 126)
    (10905190 * 2 ^ 126 * 4294967296) (10905190 * 2 ^ 126) (10905190 * 2 ^ 125) s hs
    (by norm_num) (by decide!) (by decide!) (by decide!) (by decide!)
  rw [hx0, hx1, hy0, hy1, hz0, hz1, hxd, hyd, hzd]
  refine ⟨?_, ?_, ?_⟩
  · obtain ⟨v, hv, v0, v1⟩ := X
    exact ⟨v, hv, by simp only [F32.le, decide_eq_true_eq]; exact v0,
      by simp only [F32.le, decide_eq_true_eq]; exact v1⟩
  · obtain ⟨v, hv, v0, v1⟩ := Y
    exact ⟨v, hv, by simp only [F32.le, decide_eq_true_eq]; exact v0,
      by simp only [F32.le, decide_eq_true_eq]; exact v1⟩
  · obtain ⟨v, hv, v0, v1⟩ := Y
    exact ⟨v, hv, by simp only [F32.le, decide_eq_true_eq]; exact v0,
      by simp only [F32.le, decide_eq_true_eq]; exact v1⟩

end MonteCarlo
